import Mathlib

/-!
Verification of the commit-statistics extraction logic of the
`git-stats-backend` service (`src/index.js`).  The JavaScript code is
shallowly embedded: lines are `List Char`, the regular-expression line
classifiers are translated into deterministic functional matchers (each
regex in the source admits a backtracking-free reading, justified case by
case in the comments), JS `parseInt` on captured digit groups becomes
`parseDigits`, JS `Map`/object insertion-order semantics become
association lists, and the stable `Array.prototype.sort` of Node 22
becomes a stable insertion sort.
-/

/-- Character list of a string literal (JS strings are scanned as char sequences). -/
def chars (s : String) : List Char := s.data

/-- JS regex `\d` character class. -/
def jsDigit (c : Char) : Bool := 48 ≤ c.toNat && c.toNat ≤ 57

/-- JS regex `\s` character class (ASCII part plus the Unicode space set). -/
def jsSpace (c : Char) : Bool :=
  c.toNat = 9 || c.toNat = 10 || c.toNat = 11 || c.toNat = 12 || c.toNat = 13 ||
  c.toNat = 32 || c.toNat = 160 || c.toNat = 0x1680 ||
  (0x2000 ≤ c.toNat && c.toNat ≤ 0x200a) ||
  c.toNat = 0x2028 || c.toNat = 0x2029 || c.toNat = 0x202f || c.toNat = 0x205f ||
  c.toNat = 0x3000 || c.toNat = 0xfeff

/-- JS regex `.` (without the `s` flag): any char except a line terminator. -/
def jsDot (c : Char) : Bool :=
  !(c.toNat = 10 || c.toNat = 13 || c.toNat = 0x2028 || c.toNat = 0x2029)

/-- Maximal digit run at the head of the list (greedy `\d+` or `\d*`;
no backtracking is needed anywhere in the source regexes because each
`\d+`/`\d*` is followed by a non-digit literal). -/
def takeDigits : List Char → List Char × List Char
  | [] => ([], [])
  | c :: r =>
    if jsDigit c then
      let p := takeDigits r
      (c :: p.1, p.2)
    else ([], c :: r)

/-- Maximal whitespace run at the head of the list (greedy `\s*`/`\s+`,
always followed by a non-space literal in the source regexes). -/
def takeSpaces : List Char → List Char × List Char
  | [] => ([], [])
  | c :: r =>
    if jsSpace c then
      let p := takeSpaces r
      (c :: p.1, p.2)
    else ([], c :: r)

/-- Strip an exact literal from the head of the input. -/
def stripLit : List Char → List Char → Option (List Char)
  | [], r => some r
  | _ :: _, [] => none
  | c :: p, d :: r => if c = d then stripLit p r else none

/-- `line.startsWith(p)`. -/
def startsWithL : List Char → List Char → Bool
  | [], _ => true
  | _ :: _, [] => false
  | c :: p, d :: l => c = d && startsWithL p l

/-- `line.includes(p)`. -/
def containsSub (p : List Char) : List Char → Bool
  | [] => startsWithL p []
  | l@(_ :: t) => startsWithL p l || containsSub p t

/-- JS `String.prototype.split(sep)` for a single-char separator.
Always returns a non-empty list of parts. -/
def splitOnChar (sep : Char) : List Char → List (List Char)
  | [] => [[]]
  | c :: r =>
    match splitOnChar sep r with
    | [] => [[c]]
    | p :: ps => if c = sep then [] :: p :: ps else (c :: p) :: ps

/-- `text.split('\n')`. -/
def splitLines (raw : List Char) : List (List Char) := splitOnChar '\n' raw

/-- JS `String.prototype.trim()` (same whitespace set as `\s`). -/
def jsTrim (l : List Char) : List Char :=
  ((l.dropWhile (fun c => jsSpace c)).reverse.dropWhile (fun c => jsSpace c)).reverse

/-- JS `parseInt` on a captured all-digit group. -/
def parseDigits (l : List Char) : Nat :=
  l.foldl (fun a c => 10 * a + (c.toNat - 48)) 0

/-- Decimal digit to its character. -/
def digitChar (n : Nat) : Char := Char.ofNat (48 + n)

/-- Fuel-driven decimal rendering, most significant digit first
(kernel-reducible so concrete witnesses evaluate). -/
def natLitAux : Nat → Nat → List Char → List Char
  | 0, _, acc => acc
  | _ + 1, 0, acc => acc
  | fuel + 1, n + 1, acc =>
    natLitAux fuel ((n + 1) / 10) (digitChar ((n + 1) % 10) :: acc)

/-- Model of JS number-to-string conversion for a natural (template literals). -/
def natLit (n : Nat) : List Char := if n = 0 then ['0'] else natLitAux n n []

/-- JS `Array.prototype.join(', ')`. -/
def joinParts : List (List Char) → List Char
  | [] => []
  | [x] => x
  | x :: xs => x ++ ',' :: ' ' :: joinParts xs

/-- JS `Array.prototype.join('.')`. -/
def joinDots : List (List Char) → List Char
  | [] => []
  | [x] => x
  | x :: xs => x ++ '.' :: joinDots xs

/-- Association-list model of `Map.prototype.set` / JS object keyed update:
update in place if present, append otherwise (insertion order preserved). -/
def mapSet {v : Type} (m : List (List Char × v)) (k : List Char) (x : v) :
    List (List Char × v) :=
  if m.any (fun p => p.1 = k) then
    m.map (fun p => if p.1 = k then (k, x) else p)
  else m ++ [(k, x)]

/-- Association-list model of `Map.prototype.get` (first matching key). -/
def mapGet {v : Type} (m : List (List Char × v)) (k : List Char) : Option v :=
  (m.find? (fun p => p.1 = k)).map (fun p => p.2)

/-- Stable insertion (before the first element whose key is `≤` the new
element's key): models one step of Node's stable `sort((a,b) => key(b) - key(a))`. -/
def insertDescBy {α : Type} (key : α → Nat) (x : α) : List α → List α
  | [] => [x]
  | y :: ys => if key y ≤ key x then x :: y :: ys else y :: insertDescBy key x ys

/-- Stable descending sort by a numeric key, modelling Node 22's stable
`Array.prototype.sort` with comparator `(a, b) => key(b) - key(a)`. -/
def jsSortDescBy {α : Type} (key : α → Nat) : List α → List α
  | [] => []
  | x :: xs => insertDescBy key x (jsSortDescBy key xs)

/-! ## Summary-line matcher

Embedding of the regex at `src/index.js:112` and `:235`:
`/(\d+) files? changed(?:,\s*(\d+) insertions?\(\+\))?(?:,\s*(\d+) deletions?\(-\))?/`.
Every quantifier is followed by a character that its own class cannot
match (`\d+` by a space or tab, `\s*` by a digit, `s?` by a space or an
opening parenthesis), so the greedy backtracking search is equivalent to
the deterministic matcher below; the two optional groups need no
backtracking because the match already succeeds once `changed` is read. -/

def litSpFile : List Char := [' ', 'f', 'i', 'l', 'e']

def litSpChanged : List Char := [' ', 'c', 'h', 'a', 'n', 'g', 'e', 'd']

def litSpInsertion : List Char := [' ', 'i', 'n', 's', 'e', 'r', 't', 'i', 'o', 'n']

def litSpDeletion : List Char := [' ', 'd', 'e', 'l', 'e', 't', 'i', 'o', 'n']

def litParenPlus : List Char := ['(', '+', ')']

def litParenMinus : List Char := ['(', '-', ')']

/-- One optional group `(?:,\s*(\d+) <word>s?<suffix>)?` tried at the
current position; returns the captured digits and the rest on success. -/
def matchNumPhrase (word suffix : List Char) : List Char → Option (List Char × List Char)
  | ',' :: r1 =>
    let r2 := (takeSpaces r1).2
    let p := takeDigits r2
    if p.1.isEmpty then none
    else
      match stripLit word p.2 with
      | none => none
      | some r4 =>
        let r5 := match r4 with
          | 's' :: t => t
          | _ => r4
        (stripLit suffix r5).map (fun r6 => (p.1, r6))
  | _ => none

/-- Attempt the whole summary regex at one start position.  Returns the
three captured groups (group 1 mandatory, groups 2 and 3 optional). -/
def matchSummaryAt (l : List Char) : Option (List Char × Option (List Char) × Option (List Char)) :=
  let p := takeDigits l
  if p.1.isEmpty then none
  else
    match stripLit litSpFile p.2 with
    | none => none
    | some r2 =>
      let r3 := match r2 with
        | 's' :: t => t
        | _ => r2
      match stripLit litSpChanged r3 with
      | none => none
      | some r4 =>
        match matchNumPhrase litSpInsertion litParenPlus r4 with
        | some (g2, r5) =>
          match matchNumPhrase litSpDeletion litParenMinus r5 with
          | some (g3, _) => some (p.1, some g2, some g3)
          | none => some (p.1, some g2, none)
        | none =>
          match matchNumPhrase litSpDeletion litParenMinus r4 with
          | some (g3, _) => some (p.1, none, some g3)
          | none => some (p.1, none, none)

/-- Leftmost match of the summary regex (`line.match(...)` scans start
positions left to right). -/
def summaryMatch : List Char → Option (List Char × Option (List Char) × Option (List Char))
  | [] => none
  | l@(_ :: t) =>
    match matchSummaryAt l with
    | some g => some g
    | none => summaryMatch t

/-- `parseInt(g) || prior` on a captured digit group (`0` is falsy). -/
def orPrev (n prior : Nat) : Nat := if n = 0 then prior else n

/-- The three counters updated by the summary-line branch. -/
structure SumTriple where
  f : Nat
  i : Nat
  d : Nat
deriving DecidableEq, Repr

/-- The update at `src/index.js:236-240`: on a match set
`filesChanged = parseInt(m[1]) || filesChanged`, and for each present
optional group `g`, `counter = parseInt(g) || counter`. -/
def applySummary (st : SumTriple) (line : List Char) : SumTriple :=
  match summaryMatch line with
  | none => st
  | some (g1, g2, g3) =>
    { f := orPrev (parseDigits g1) st.f
      i := match g2 with
        | some ds => orPrev (parseDigits ds) st.i
        | none => st.i
      d := match g3 with
        | some ds => orPrev (parseDigits ds) st.d
        | none => st.d }

/-- Fold of the summary-line branch over all lines of one commit's raw
text, from the initial zero counters (`src/index.js:224-240`). -/
def parseTriple (raw : List Char) : SumTriple :=
  (splitLines raw).foldl applySummary ⟨0, 0, 0⟩

def litFilesChanged : List Char :=
  [' ', 'f', 'i', 'l', 'e', 's', ' ', 'c', 'h', 'a', 'n', 'g', 'e', 'd']

/-- The reconstructed stat line of `src/index.js:295-299`:
`[filesChanged ? `${filesChanged} files changed` : null, ins ? `+${ins}` : null,
del ? `−${del}` : null].filter(Boolean).join(', ')` (note the U+2212 minus). -/
def summaryText (f i d : Nat) : List Char :=
  joinParts ((if f ≠ 0 then [natLit f ++ litFilesChanged] else []) ++
             (if i ≠ 0 then [('+' :: natLit i)] else []) ++
             (if d ≠ 0 then [('−' :: natLit d)] else []))

/-! ## Per-file line matchers of the diffs route (`src/index.js:242-270`) -/

/-- One numstat entry: insertions, deletions, binary flag. -/
structure NumEntry where
  ins : Nat
  del : Nat
  binary : Bool
deriving DecidableEq, Repr

/-- One `(\d+|-)\t` field of the numstat regex: the ordered alternation
tries `\d+` first and `-` second; both are followed by the literal tab,
so the choice is deterministic. Returns `none` for a dash field. -/
def numstatField : List Char → Option (Option Nat × List Char)
  | l =>
    let p := takeDigits l
    if p.1.isEmpty then
      match l with
      | '-' :: '\t' :: r2 => some (none, r2)
      | _ => none
    else
      match p.2 with
      | '\t' :: r2 => some (some (parseDigits p.1), r2)
      | _ => none

/-- Embedding of `/^(\d+|-)\t(\d+|-)\t(.+)$/` at `src/index.js:247`,
combined with the uses at lines 249-252: a dash field contributes 0 and
marks the file binary; the path is `m[3].trim()`. -/
def numstatMatch (l : List Char) : Option (NumEntry × List Char) :=
  match numstatField l with
  | none => none
  | some (f1, r1) =>
    match numstatField r1 with
    | none => none
    | some (f2, r2) =>
      if r2.isEmpty || !r2.all jsDot then none
      else some (⟨f1.getD 0, f2.getD 0, f1.isNone || f2.isNone⟩, jsTrim r2)

/-- Split for the greedy `(.+)\t(.+)$` tail of the rename regex: scanning
the reversed input, the separator is the last tab that is followed by at
least one character and preceded by at least one; the accumulator holds
the suffix built so far in forward order. -/
def splitSep : List Char → List Char → Option (List Char × List Char)
  | [], _ => none
  | c :: before, acc =>
    if c = '\t' then
      if acc.isEmpty || before.isEmpty then splitSep before (c :: acc)
      else some (before.reverse, acc)
    else splitSep before (c :: acc)

/-- Embedding of `/^R\d*\t(.+)\t(.+)$/` at `src/index.js:256` with the
`trim()` of line 258: returns `{from, to}` for a rename line. -/
def renameMatch : List Char → Option (List Char × List Char)
  | 'R' :: r =>
    let p := takeDigits r
    match p.2 with
    | '\t' :: r2 =>
      if r2.all jsDot then
        match splitSep r2.reverse [] with
        | some (g1, g2) => some (jsTrim g1, jsTrim g2)
        | none => none
      else none
    | _ => none
  | _ => none

/-- Embedding of `/^([AMDC])\t(.+)$/` at `src/index.js:261` with the
`trim()` of line 264. -/
def nsMatch : List Char → Option (Char × List Char)
  | c :: '\t' :: r =>
    if (c = 'A' || c = 'M' || c = 'D' || c = 'C') && !r.isEmpty && r.all jsDot then
      some (c, jsTrim r)
    else none
  | _ => none

/-- The `\s+\|\s+(\d+)` tail of the per-file stat regex checked at one
split point (`\s+` greedy is deterministic: followed by `|` resp. a digit). -/
def fileLineSep (rem : List Char) : Option (List Char) :=
  let p := takeSpaces rem
  if p.1.isEmpty then none
  else
    match p.2 with
    | '|' :: r2 =>
      let q := takeSpaces r2
      if q.1.isEmpty then none
      else
        let ds := takeDigits q.2
        if ds.1.isEmpty then none else some ds.1
    | _ => none

/-- Lazy growth of the `(.+?)` group: check the separator before adding
the next character to the captured content (reversed accumulator). -/
def fileLineGo (content : List Char) : List Char → Option (List Char × List Char)
  | [] => none
  | c :: r =>
    match fileLineSep (c :: r) with
    | some ds => some (content.reverse, ds)
    | none => if jsDot c then fileLineGo (c :: content) r else none

/-- The regex tail starting right after the `^\s*` prefix: the first
captured character must exist and be matchable by `.`. -/
def fileLineAt : List Char → Option (List Char × List Char)
  | [] => none
  | c :: r => if jsDot c then fileLineGo [c] r else none

/-- Backtracking over the greedy `^\s*` prefix: try the maximal
whitespace prefix first, then shorter ones down to the empty prefix. -/
def fileLineLoop (l : List Char) : Nat → Option (List Char × List Char)
  | 0 => fileLineAt l
  | s + 1 =>
    match fileLineAt (l.drop (s + 1)) with
    | some r => some r
    | none => fileLineLoop l s

/-- Embedding of `/^\s*(.+?)\s+\|\s+(\d+)/` at `src/index.js:242`
(per-file stat table row): returns the raw group 1 and the digits of
group 2. -/
def fileLineMatch (l : List Char) : Option (List Char × List Char) :=
  fileLineLoop l (takeSpaces l).1.length

/-! ## The diffs-route per-commit parse (`src/index.js:221-314`) -/

/-- Parser state accumulated line by line at `src/index.js:224-271`. -/
structure DiffAcc where
  f : Nat
  i : Nat
  d : Nat
  fileChanges : List (List Char × Nat)
  numstat : List (List Char × NumEntry)
  added : List (List Char)
  modified : List (List Char)
  deleted : List (List Char)
  renamed : List (List Char × List Char)
deriving DecidableEq, Repr

def initAcc : DiffAcc := ⟨0, 0, 0, [], [], [], [], [], []⟩

/-- One iteration of the `for (const line of lines)` loop at
`src/index.js:233-271`: the summary, per-file stat and numstat matchers
all run unconditionally; a rename match `continue`s past the generic
name-status matcher; `C` (copy) is pushed as added. -/
def diffLineStep (st : DiffAcc) (l : List Char) : DiffAcc :=
  let st := match summaryMatch l with
    | none => st
    | some (g1, g2, g3) =>
      { st with
        f := orPrev (parseDigits g1) st.f
        i := match g2 with
          | some ds => orPrev (parseDigits ds) st.i
          | none => st.i
        d := match g3 with
          | some ds => orPrev (parseDigits ds) st.d
          | none => st.d }
  let st := match fileLineMatch l with
    | none => st
    | some (nm, ds) => { st with fileChanges := st.fileChanges ++ [(jsTrim nm, parseDigits ds)] }
  let st := match numstatMatch l with
    | none => st
    | some (e, path) => { st with numstat := mapSet st.numstat path e }
  match renameMatch l with
  | some (fr, dst) => { st with renamed := st.renamed ++ [(fr, dst)] }
  | none =>
    match nsMatch l with
    | some (c, file) =>
      if c = 'A' || c = 'C' then { st with added := st.added ++ [file] }
      else if c = 'M' then { st with modified := st.modified ++ [file] }
      else { st with deleted := st.deleted ++ [file] }
    | none => st

/-- One entry of the `detailFiles` list (`src/index.js:273-284`):
renames carry the two paths, other statuses carry none. -/
structure Detail where
  file : List Char
  status : Char
  insertions : Nat
  deletions : Nat
  binary : Bool
  src : Option (List Char)
  dst : Option (List Char)
deriving DecidableEq, Repr

/-- `pushDetail` at `src/index.js:274-277`: numstat lookup by the file's
own path, defaulting to zeros and not binary. -/
def pushDetail (ns : List (List Char × NumEntry)) (file : List Char) (k : Char) : Detail :=
  let e := (mapGet ns file).getD ⟨0, 0, false⟩
  ⟨file, k, e.ins, e.del, e.binary, none, none⟩

/-- The rename entry at `src/index.js:281-284`: numstat looked up by
destination path first, falling back to the source path, defaulting to
zeros and not binary. -/
def renameDetail (ns : List (List Char × NumEntry)) (fr dst : List Char) : Detail :=
  let e := ((mapGet ns dst).orElse (fun _ => mapGet ns fr)).getD ⟨0, 0, false⟩
  ⟨dst, 'R', e.ins, e.del, e.binary, some fr, some dst⟩

/-- `detailFiles` assembly order of `src/index.js:278-284`. -/
def detailFiles (st : DiffAcc) : List Detail :=
  st.added.map (fun f => pushDetail st.numstat f 'A') ++
  st.modified.map (fun f => pushDetail st.numstat f 'M') ++
  st.deleted.map (fun f => pushDetail st.numstat f 'D') ++
  st.renamed.map (fun p => renameDetail st.numstat p.1 p.2)

/-- The extension key of `src/index.js:288`:
`(df.file.split('/').pop() || '').split('.').slice(1).join('.') || 'noext'`. -/
def extKey (file : List Char) : List Char :=
  let seg := ((splitOnChar '/' file).getLast?).getD []
  let e := joinDots ((splitOnChar '.' seg).drop 1)
  if e.isEmpty then chars "noext" else e

/-- The `byExtension` aggregation loop of `src/index.js:286-293`
(a JS object in insertion order; value = files, insertions, deletions). -/
def byExtension (dfs : List Detail) : List (List Char × (Nat × Nat × Nat)) :=
  dfs.foldl
    (fun m df =>
      match mapGet m (extKey df.file) with
      | some v => mapSet m (extKey df.file) (v.1 + 1, v.2.1 + df.insertions, v.2.2 + df.deletions)
      | none => mapSet m (extKey df.file) (1, df.insertions, df.deletions))
    []

/-- The `summary` object assembled at `src/index.js:294-314`. -/
structure SummaryM where
  text : List Char
  filesChanged : Nat
  insertions : Nat
  deletions : Nat
  topFiles : List (List Char)
  countAdded : Nat
  countModified : Nat
  countDeleted : Nat
  countRenamed : Nat
  files : List Detail
  byExt : List (List Char × (Nat × Nat × Nat))
deriving DecidableEq, Repr

/-- Build the full summary from one commit's raw text
(`src/index.js:221-314`): `filesChanged || fileChanges.length || 0`,
`ins || 0`, `del || 0`, top files by change volume (stable sort, first
three), detail files sorted by `insertions + deletions` descending. -/
def buildSummary (raw : List Char) : SummaryM :=
  let st := (splitLines raw).foldl diffLineStep initAcc
  let dfs := detailFiles st
  { text := summaryText st.f st.i st.d
    filesChanged := if st.f ≠ 0 then st.f else st.fileChanges.length
    insertions := st.i
    deletions := st.d
    topFiles := ((jsSortDescBy (fun p => p.2) st.fileChanges).take 3).map (fun p => p.1)
    countAdded := st.added.length
    countModified := st.modified.length
    countDeleted := st.deleted.length
    countRenamed := st.renamed.length
    files := jsSortDescBy (fun df => df.insertions + df.deletions) dfs
    byExt := byExtension dfs }

/-! ## Diff body retention (`src/index.js:316-341`) -/

def litDiffGit : List Char := chars "diff --git"

def litDiff : List Char := chars "diff"

/-- A line retained by the body filter at `src/index.js:329-330`:
starts with `+`, `-`, `@@` or `diff`. -/
def isRetainable (l : List Char) : Bool :=
  startsWithL ['+'] l || startsWithL ['-'] l || startsWithL ['@', '@'] l ||
  startsWithL litDiff l

/-- Loop state of the body-retention scan. -/
structure ChScan where
  inDiff : Bool
  lineCount : Nat
  changes : List (List Char)
deriving DecidableEq, Repr

/-- One iteration of the loop at `src/index.js:321-335`: a `diff --git`
line turns capture on before the same line is tested; a retainable line
is kept only while `lineCount < 200`. -/
def chStep (st : ChScan) (l : List Char) : ChScan :=
  let st := if startsWithL litDiffGit l then { st with inDiff := true } else st
  if st.inDiff && decide (st.lineCount < 200) && isRetainable l then
    { st with changes := st.changes ++ [l], lineCount := st.lineCount + 1 }
  else st

def noChangesMsg : List Char :=
  chars "// No code changes to display (possibly binary files or large changes)"

def truncMsg : List Char := chars "... (output truncated - too many changes)"

/-- The `changes` list returned for one commit
(`src/index.js:316-341`): placeholder when nothing was captured, a
truncation marker appended when `lineCount >= 200`. -/
def collectChanges (lines : List (List Char)) : List (List Char) :=
  let st := lines.foldl chStep ⟨false, 0, []⟩
  if st.changes.isEmpty then [noChangesMsg]
  else if 200 ≤ st.lineCount then st.changes ++ [truncMsg]
  else st.changes

/-- Specification-side list of all retainable body lines (the same scan
without the cap), used to state the truncation properties. -/
def retainList (b : Bool) : List (List Char) → List (List Char)
  | [] => []
  | l :: ls =>
    let b2 := b || startsWithL litDiffGit l
    (if b2 && isRetainable l then [l] else []) ++ retainList b2 ls

/-! ## Commit records and the diffs route (`src/index.js:183-396`) -/

/-- A commit as delivered by the history lister (`git.log()`). -/
structure CommitRec where
  hash : List Char
  author : List Char
  message : List Char
  date : List Char
deriving DecidableEq, Repr

/-- `commit.message.split('\n')[0]`. -/
def firstLine (msg : List Char) : List Char := (splitLines msg).headD []

/-- The summary attached to one diff entry; error entries carry the
reduced object of `src/index.js:361-367` (no `details` field). -/
structure EntrySummary where
  text : List Char
  filesChanged : Nat
  insertions : Nat
  deletions : Nat
  topFiles : List (List Char)
  details : Option SummaryM
deriving DecidableEq, Repr

/-- One element of the `diffs` array; the no-commits placeholder carries
no summary at all (`src/index.js:377-382`). -/
structure DiffEntryM where
  commit : List Char
  message : List Char
  date : List Char
  summary : Option EntrySummary
  changes : List (List Char)
deriving DecidableEq, Repr

def errText (msg : List Char) : List Char := chars "Error loading summary: " ++ msg

def errLine1 (msg : List Char) : List Char := chars "// Error loading changes: " ++ msg

def errLine2 : List Char :=
  chars "// This commit may have too many changes or contain binary files"

/-- Entry built for one processed commit: the success path of
`src/index.js:343-349`, or the catch path of lines 357-372 where the
fetch raised (`Except.error` carries the error message). -/
def diffEntry (c : CommitRec) (res : Except (List Char) (List Char)) : DiffEntryM :=
  match res with
  | Except.ok raw =>
    let s := buildSummary raw
    { commit := c.hash.take 7
      message := firstLine c.message
      date := c.date
      summary := some ⟨s.text, s.filesChanged, s.insertions, s.deletions, s.topFiles, some s⟩
      changes := collectChanges (splitLines raw) }
  | Except.error msg =>
    { commit := c.hash.take 7
      message := firstLine c.message
      date := c.date
      summary := some ⟨errText msg, 0, 0, 0, [], none⟩
      changes := [errLine1 msg, errLine2] }

/-- The placeholder entry returned when the user has no commits
(`src/index.js:376-383`); `now` stands for `new Date().toISOString()`. -/
def noCommitsEntry (now : List Char) : DiffEntryM :=
  { commit := chars "N/A"
    message := chars "No commits found for this user"
    date := now
    summary := none
    changes := [chars "// No commits available"] }

/-- The whole `/api/contributor/:username/diffs` computation
(`src/index.js:183-396`): filter the history by author name, process the
first five commits (`userCommits.slice(0, 5)`), and fall back to the
placeholder when nothing was produced.  `fetch` stands for the external
`git.show` call with its timeout (an `Except` per commit). -/
def diffsFor (username : List Char) (history : List CommitRec)
    (fetch : CommitRec → Except (List Char) (List Char)) (now : List Char) :
    List DiffEntryM :=
  let userCommits := history.filter (fun c => c.author = username)
  let diffs := (userCommits.take 5).map (fun c => diffEntry c (fetch c))
  if diffs.isEmpty then [noCommitsEntry now] else diffs

/-! ## Contributor aggregation (`src/index.js:57-180`) -/

/-- One contributor record (`src/index.js:72-81`); the `commitMessages`
display metadata is not modelled, no claimed property mentions it. -/
structure Contributor where
  username : List Char
  commits : Nat
  additions : Nat
  deletions : Nat
  commitHashes : List (List Char)
deriving DecidableEq, Repr

def litInsertionWord : List Char := chars "insertion"

def litDeletionWord : List Char := chars "deletion"

/-- Leftmost occurrence of `(\d+)<word>`: scan start positions left to
right; at each one the greedy `\d+` is followed by the word's leading
space, so no backtracking into the digit run is needed. -/
def searchNumWord (word : List Char) : List Char → Option (Nat × List Char)
  | [] => none
  | l@(_ :: t) =>
    let p := takeDigits l
    match (if p.1.isEmpty then none else
             (stripLit word p.2).map (fun r => (parseDigits p.1, r))) with
    | some r => some r
    | none => searchNumWord word t

/-- Embedding of `/(\d+) insertion.*?(\d+) deletion/` at
`src/index.js:126`: the lazy middle means the first `(\d+) deletion`
occurrence after the end of the first `(\d+) insertion` occurrence; if
the earliest insertion position has no deletion after it, later ones
cannot either, so one leftmost scan each is faithful. -/
def insDelMatch (l : List Char) : Option (Nat × Nat) :=
  match searchNumWord litSpInsertion l with
  | none => none
  | some (a, rest) =>
    match searchNumWord litSpDeletion rest with
    | none => none
    | some (b, _) => some (a, b)

/-- The per-line contributor-totals update at `src/index.js:126-136`. -/
def statLineUpd (con : Contributor) (l : List Char) : Contributor :=
  match insDelMatch l with
  | some p => { con with additions := con.additions + p.1, deletions := con.deletions + p.2 }
  | none =>
    if containsSub litInsertionWord l then
      match searchNumWord litSpInsertion l with
      | some p => { con with additions := con.additions + p.1 }
      | none => con
    else if containsSub litDeletionWord l then
      match searchNumWord litSpDeletion l with
      | some p => { con with deletions := con.deletions + p.1 }
      | none => con
    else con

/-- Scan one commit's stat text for the contributor's running totals
(`src/index.js:102-137`). -/
def applyStatLines (con : Contributor) (raw : List Char) : Contributor :=
  (splitLines raw).foldl statLineUpd con

/-- `contributorMap` access pattern of `src/index.js:72-83`: create the
entry on first sight (insertion order preserved), then mutate it. -/
def ensureAndUpdate (m : List Contributor) (u : List Char)
    (f : Contributor → Contributor) : List Contributor :=
  if m.any (fun c => c.username = u) then
    m.map (fun c => if c.username = u then f c else c)
  else m ++ [f ⟨u, 0, 0, 0, []⟩]

/-- Processing of one commit in the contributors loop
(`src/index.js:69-168`): `commits` and `commitHashes` are updated before
the guarded fetch, so a failed fetch (`Except.error`) leaves the
line-scan out but keeps the count and the hash. -/
def contribStep (fetch : CommitRec → Except (List Char) (List Char))
    (m : List Contributor) (c : CommitRec) : List Contributor :=
  ensureAndUpdate m c.author (fun con =>
    let con := { con with
      commits := con.commits + 1
      commitHashes := con.commitHashes ++ [c.hash] }
    match fetch c with
    | Except.ok raw => applyStatLines con raw
    | Except.error _ => con)

/-- First matching contributor by display name. -/
def findUser (m : List Contributor) (u : List Char) : Option Contributor :=
  m.find? (fun c => c.username = u)

/-- The whole `/api/contributors` aggregation (`src/index.js:57-180`):
fold the history in order, then `Array.from(map.values()).sort((a, b) =>
b.commits - a.commits)` (a stable sort on Node 22). -/
def aggregateContributors (history : List CommitRec)
    (fetch : CommitRec → Except (List Char) (List Char)) : List Contributor :=
  jsSortDescBy (fun c => c.commits) (history.foldl (contribStep fetch) [])

/-- The sequence of first occurrences of the given names, in order
(specification-side, for the tie-breaking statement). -/
def firstSeenFrom (seen : List (List Char)) : List (List Char) → List (List Char)
  | [] => seen
  | a :: r => if seen.any (fun x => x = a) then firstSeenFrom seen r
              else firstSeenFrom (seen ++ [a]) r

/-! ## Diff filter (spec section 4.3) -/

/-- One per-file diff block with its two paths. -/
structure FileBlock where
  oldPath : List Char
  newPath : List Char
deriving DecidableEq, Repr

/-- A path has a component exactly equal to `seg` (split on `/`). -/
def hasSegment (seg path : List Char) : Bool :=
  (splitOnChar '/' path).any (fun c => c = seg)

/-- A block is excluded when either path has a component equal to the
reserved segment. -/
def blockExcluded (seg : List Char) (b : FileBlock) : Bool :=
  hasSegment seg b.oldPath || hasSegment seg b.newPath

/-- Modelled from the spec: `filterNoise(fileBlocks, excludedSegment)`
(spec sections 4.3 and 6) is absent from `src/`; per the spec it keeps
exactly the blocks whose old-path and new-path both lack a path
component equal to the reserved dependency-directory segment. -/
def filterNoise (seg : List Char) (blocks : List FileBlock) : List FileBlock :=
  blocks.filter (fun b => !blockExcluded seg b)

/-- Modelled from the spec: the sequence-level rule of section 4.3 — a
commit whose change set is emptied by the exclusion is omitted from the
result sequence altogether. -/
def filterNoiseSeq (seg : List Char) : List (List FileBlock) → List (List FileBlock)
  | [] => []
  | c :: cs =>
    let fc := filterNoise seg c
    if fc.isEmpty then filterNoiseSeq seg cs else fc :: filterNoiseSeq seg cs

/-! ## Lemmas: decimal rendering and digit parsing -/

theorem natLitAux_eq (fuel : Nat) :
    ∀ n acc, n ≤ fuel →
      natLitAux fuel n acc = ((Nat.digits 10 n).map digitChar).reverse ++ acc := by
  induction fuel with
  | zero =>
    intro n acc h
    interval_cases n
    simp [natLitAux]
  | succ fuel ih =>
    intro n acc h
    cases n with
    | zero => simp [natLitAux]
    | succ m =>
      have hdiv : (m + 1) / 10 ≤ fuel := by
        have h1 : (m + 1) / 10 < m + 1 := Nat.div_lt_self (Nat.succ_pos m) (by norm_num)
        omega
      rw [natLitAux, ih _ _ hdiv]
      rw [Nat.digits_def' (by norm_num : (1:Nat) < 10) (Nat.succ_pos m)]
      simp

theorem natLit_eq (n : Nat) :
    natLit n = if n = 0 then ['0'] else ((Nat.digits 10 n).map digitChar).reverse := by
  unfold natLit
  split
  · rfl
  · rw [natLitAux_eq n n [] (Nat.le_refl n), List.append_nil]

theorem jsDigit_digitChar (d : Nat) (h : d < 10) : jsDigit (digitChar d) = true := by
  interval_cases d <;> decide

theorem toNat_digitChar (d : Nat) (h : d < 10) : (digitChar d).toNat = 48 + d := by
  interval_cases d <;> decide

theorem natLit_ne_nil (n : Nat) : natLit n ≠ [] := by
  rw [natLit_eq]
  split
  · simp
  · simp [Nat.digits_ne_nil_iff_ne_zero]
    omega

theorem natLit_all_digits (n : Nat) : ∀ c ∈ natLit n, jsDigit c = true := by
  intro c hc
  rw [natLit_eq] at hc
  split at hc
  · simp at hc
    subst hc
    decide
  · simp at hc
    obtain ⟨d, hd, rfl⟩ := hc
    exact jsDigit_digitChar d (Nat.digits_lt_base (by norm_num) hd)

theorem foldr_digitChar (D : List Nat) (h : ∀ d ∈ D, d < 10) :
    D.foldr (fun d y => 10 * y + ((digitChar d).toNat - 48)) 0 = Nat.ofDigits 10 D := by
  induction D with
  | nil => simp [Nat.ofDigits_nil]
  | cons d D ih =>
    have hd : d < 10 := h d (List.mem_cons_self d D)
    have hD : ∀ x ∈ D, x < 10 := fun x hx => h x (List.mem_cons_of_mem d hx)
    simp [List.foldr_cons, ih hD, Nat.ofDigits_cons, toNat_digitChar d hd]
    omega

theorem parseDigits_natLit (n : Nat) : parseDigits (natLit n) = n := by
  rw [natLit_eq]
  split
  · subst n
    decide
  · unfold parseDigits
    rw [List.foldl_reverse, List.foldr_map]
    rw [foldr_digitChar _ (fun d hd => Nat.digits_lt_base (by norm_num) hd)]
    exact Nat.ofDigits_digits 10 n

/-! ## Lemmas: greedy-run and literal matchers on shaped inputs -/

theorem jsDigit_not_space (c : Char) (h : jsDigit c = true) : jsSpace c = false := by
  simp [jsDigit] at h
  simp [jsSpace]
  omega

theorem takeDigits_cons_not (c : Char) (r : List Char) (h : jsDigit c = false) :
    takeDigits (c :: r) = ([], c :: r) := by
  simp [takeDigits, h]

theorem takeDigits_append (ds rest : List Char) (hd : ∀ c ∈ ds, jsDigit c = true)
    (hr : takeDigits rest = ([], rest)) : takeDigits (ds ++ rest) = (ds, rest) := by
  induction ds with
  | nil => simpa using hr
  | cons c cs ih =>
    have hc : jsDigit c = true := hd c (List.mem_cons_self c cs)
    have ihh := ih (fun x hx => hd x (List.mem_cons_of_mem c hx))
    simp [takeDigits, hc, ihh]

theorem takeSpaces_cons_not (c : Char) (r : List Char) (h : jsSpace c = false) :
    takeSpaces (c :: r) = ([], c :: r) := by
  simp [takeSpaces, h]

theorem stripLit_self_append (p r : List Char) : stripLit p (p ++ r) = some r := by
  induction p with
  | nil => rfl
  | cons c cs ih => simp [stripLit, ih]

theorem orPrev_zero (n : Nat) : orPrev n 0 = n := by
  unfold orPrev
  split <;> omega

/-! ## Lemmas: the summary-line matcher on shaped lines -/

theorem takeDigits_cons_append (y : Char) (ys rest : List Char)
    (hd : ∀ c ∈ y :: ys, jsDigit c = true) (hr : takeDigits rest = ([], rest)) :
    takeDigits (y :: (ys ++ rest)) = (y :: ys, rest) := by
  have h := takeDigits_append (y :: ys) rest hd hr
  simpa using h

theorem takeSpaces_cons_sp (c : Char) (r : List Char) (h : jsSpace c = true) :
    takeSpaces (c :: r) = (c :: (takeSpaces r).1, (takeSpaces r).2) := by
  simp [takeSpaces, h]

theorem jsSpace_blank : jsSpace ' ' = true := by decide

theorem matchNumPhrase_stop (w sfx : List Char) (q : Char) (X : List Char)
    (h1 : jsSpace q = false) (h2 : jsDigit q = false) :
    matchNumPhrase w sfx (',' :: ' ' :: q :: X) = none := by
  simp [matchNumPhrase, takeSpaces, takeDigits, jsSpace_blank, h1, h2]

theorem matchNumPhrase_canonical (w2 sfx b rest : List Char) (hb : b ≠ [])
    (hdb : ∀ c ∈ b, jsDigit c = true) :
    matchNumPhrase (' ' :: w2) sfx
      (',' :: ' ' :: (b ++ ((' ' :: w2) ++ 's' :: (sfx ++ rest)))) = some (b, rest) := by
  obtain ⟨y, ys, rfl⟩ := List.exists_cons_of_ne_nil hb
  have hy : jsDigit y = true := hdb y (List.mem_cons_self y ys)
  have hr : takeDigits (' ' :: (w2 ++ 's' :: (sfx ++ rest))) =
      ([], ' ' :: (w2 ++ 's' :: (sfx ++ rest))) := takeDigits_cons_not _ _ (by decide)
  have hdg := takeDigits_cons_append y ys _ hdb hr
  have hns : jsSpace y = false := jsDigit_not_space y hy
  simp only [List.cons_append, List.append_assoc, matchNumPhrase]
  rw [takeSpaces_cons_sp _ _ jsSpace_blank, takeSpaces_cons_not _ _ hns]
  simp [hdg, stripLit_self_append, stripLit]

theorem matchNumPhrase_wrongWord (w sfx b X : List Char) (hb : b ≠ [])
    (hdb : ∀ c ∈ b, jsDigit c = true) (hX : takeDigits X = ([], X))
    (hs : stripLit w X = none) :
    matchNumPhrase w sfx (',' :: ' ' :: (b ++ X)) = none := by
  obtain ⟨y, ys, rfl⟩ := List.exists_cons_of_ne_nil hb
  have hy : jsDigit y = true := hdb y (List.mem_cons_self y ys)
  have hdg := takeDigits_cons_append y ys _ hdb hX
  have hns : jsSpace y = false := jsDigit_not_space y hy
  simp only [List.cons_append, matchNumPhrase]
  rw [takeSpaces_cons_sp _ _ jsSpace_blank, takeSpaces_cons_not _ _ hns]
  simp [hdg, hs]

theorem matchSummaryAt_line (a tail : List Char) (ha : a ≠ [])
    (hda : ∀ c ∈ a, jsDigit c = true) :
    matchSummaryAt (a ++ (litFilesChanged ++ tail)) =
      (match matchNumPhrase litSpInsertion litParenPlus tail with
       | some (g2, r5) =>
         match matchNumPhrase litSpDeletion litParenMinus r5 with
         | some (g3, _) => some (a, some g2, some g3)
         | none => some (a, some g2, none)
       | none =>
         match matchNumPhrase litSpDeletion litParenMinus tail with
         | some (g3, _) => some (a, none, some g3)
         | none => some (a, none, none)) := by
  obtain ⟨y, ys, rfl⟩ := List.exists_cons_of_ne_nil ha
  have hr : takeDigits (' ' :: 'f' :: 'i' :: 'l' :: 'e' :: 's' :: ' ' :: 'c' :: 'h' :: 'a'
      :: 'n' :: 'g' :: 'e' :: 'd' :: tail) = ([], ' ' :: 'f' :: 'i' :: 'l' :: 'e' :: 's'
      :: ' ' :: 'c' :: 'h' :: 'a' :: 'n' :: 'g' :: 'e' :: 'd' :: tail) :=
    takeDigits_cons_not _ _ (by decide)
  have hdg := takeDigits_cons_append y ys _ hda hr
  simp only [litFilesChanged, List.cons_append, List.nil_append, matchSummaryAt]
  rw [hdg]
  simp [stripLit, litSpFile, litSpChanged]

theorem summaryMatch_cons_hit (x : Char) (t : List Char)
    (g : List Char × Option (List Char) × Option (List Char))
    (h : matchSummaryAt (x :: t) = some g) : summaryMatch (x :: t) = some g := by
  simp [summaryMatch, h]

theorem matchSummaryAt_cons_nondigit (c : Char) (X : List Char) (h : jsDigit c = false) :
    matchSummaryAt (c :: X) = none := by
  simp [matchSummaryAt, takeDigits_cons_not _ _ h]

theorem summaryMatch_cons_nondigit (c : Char) (X : List Char) (h : jsDigit c = false) :
    summaryMatch (c :: X) = summaryMatch X := by
  simp [summaryMatch, matchSummaryAt_cons_nondigit _ _ h]

theorem summaryMatch_digits_no_file (ds t : List Char) (hd : ∀ c ∈ ds, jsDigit c = true)
    (h1 : takeDigits t = ([], t)) (h2 : stripLit litSpFile t = none)
    (h3 : summaryMatch t = none) : summaryMatch (ds ++ t) = none := by
  induction ds with
  | nil => simpa using h3
  | cons y ys ih =>
    have hy : jsDigit y = true := hd y (List.mem_cons_self y ys)
    have hdg := takeDigits_cons_append y ys t (fun c hc => hd c hc) h1
    have hat : matchSummaryAt (y :: (ys ++ t)) = none := by
      simp [matchSummaryAt, hdg, h2]
    have ihh := ih (fun c hc => hd c (List.mem_cons_of_mem y hc))
    simp only [List.cons_append, summaryMatch, List.append_eq, hat]
    exact ihh

theorem summaryMatch_natLit_append (n : Nat) (t : List Char)
    (h1 : takeDigits t = ([], t)) (h2 : stripLit litSpFile t = none)
    (h3 : summaryMatch t = none) : summaryMatch (natLit n ++ t) = none :=
  summaryMatch_digits_no_file (natLit n) t (natLit_all_digits n) h1 h2 h3

theorem summaryMatch_natLit (n : Nat) : summaryMatch (natLit n) = none := by
  have h := summaryMatch_natLit_append n [] rfl rfl rfl
  simpa using h

/-! ## The reconstructed-line round trip (claim C1) -/

theorem matchNumPhrase_nil (w sfx : List Char) : matchNumPhrase w sfx [] = none := rfl

theorem stripLit_spFile_comma (X : List Char) : stripLit litSpFile (',' :: X) = none := rfl

theorem stripLit_spFile_nil : stripLit litSpFile [] = none := rfl

theorem summaryMatch_tailDel (d : Nat) :
    summaryMatch (',' :: ' ' :: '−' :: natLit d) = none := by
  rw [summaryMatch_cons_nondigit ',' _ (by decide),
      summaryMatch_cons_nondigit ' ' _ (by decide),
      summaryMatch_cons_nondigit '−' _ (by decide)]
  exact summaryMatch_natLit d

theorem applySummary_text (f i d : Nat) :
    applySummary ⟨0, 0, 0⟩ (summaryText f i d) = ⟨f, 0, 0⟩ := by
  by_cases hf : f = 0
  · subst hf
    by_cases hi : i = 0
    · subst hi
      by_cases hd : d = 0
      · subst hd
        rfl
      · have htext : summaryText 0 0 d = '−' :: natLit d := by
          simp [summaryText, hd, joinParts]
        have hsm : summaryMatch ('−' :: natLit d) = none := by
          rw [summaryMatch_cons_nondigit '−' _ (by decide)]
          exact summaryMatch_natLit d
        simp [applySummary, htext, hsm]
    · by_cases hd : d = 0
      · subst hd
        have htext : summaryText 0 i 0 = '+' :: natLit i := by
          simp [summaryText, hi, joinParts]
        have hsm : summaryMatch ('+' :: natLit i) = none := by
          rw [summaryMatch_cons_nondigit '+' _ (by decide)]
          exact summaryMatch_natLit i
        simp [applySummary, htext, hsm]
      · have htext : summaryText 0 i d =
            '+' :: (natLit i ++ (',' :: ' ' :: '−' :: natLit d)) := by
          simp [summaryText, hi, hd, joinParts]
        have hsm : summaryMatch ('+' :: (natLit i ++ (',' :: ' ' :: '−' :: natLit d))) = none := by
          rw [summaryMatch_cons_nondigit '+' _ (by decide)]
          exact summaryMatch_natLit_append i _ (takeDigits_cons_not _ _ (by decide))
            (stripLit_spFile_comma _) (summaryMatch_tailDel d)
        simp [applySummary, htext, hsm]
  · -- f ≠ 0 : the match succeeds at position 0 with both optional groups absent
    have hfl : natLit f ≠ [] := natLit_ne_nil f
    obtain ⟨y, ys, hys⟩ := List.exists_cons_of_ne_nil hfl
    have htail : ∀ tail, matchNumPhrase litSpInsertion litParenPlus tail = none →
        matchNumPhrase litSpDeletion litParenMinus tail = none →
        applySummary ⟨0, 0, 0⟩ (natLit f ++ (litFilesChanged ++ tail)) = ⟨f, 0, 0⟩ := by
      intro tail h1 h2
      have hat := matchSummaryAt_line (natLit f) tail hfl (natLit_all_digits f)
      rw [h1, h2] at hat
      have hsm : summaryMatch (natLit f ++ (litFilesChanged ++ tail)) =
          some (natLit f, none, none) := by
        rw [hys]
        rw [hys] at hat
        exact summaryMatch_cons_hit _ _ _ (by simpa using hat)
      simp [applySummary, hsm, orPrev_zero, parseDigits_natLit]
    by_cases hi : i = 0
    · by_cases hd : d = 0
      · have htext : summaryText f i d = natLit f ++ (litFilesChanged ++ []) := by
          simp [summaryText, hf, hi, hd, joinParts]
        rw [htext]
        exact htail [] (matchNumPhrase_nil _ _) (matchNumPhrase_nil _ _)
      · have htext : summaryText f i d =
            natLit f ++ (litFilesChanged ++ (',' :: ' ' :: '−' :: natLit d)) := by
          simp [summaryText, hf, hi, hd, joinParts]
        rw [htext]
        exact htail _ (matchNumPhrase_stop _ _ '−' _ (by decide) (by decide))
          (matchNumPhrase_stop _ _ '−' _ (by decide) (by decide))
    · by_cases hd : d = 0
      · have htext : summaryText f i d =
            natLit f ++ (litFilesChanged ++ (',' :: ' ' :: '+' :: natLit i)) := by
          simp [summaryText, hf, hi, hd, joinParts]
        rw [htext]
        exact htail _ (matchNumPhrase_stop _ _ '+' _ (by decide) (by decide))
          (matchNumPhrase_stop _ _ '+' _ (by decide) (by decide))
      · have htext : summaryText f i d =
            natLit f ++ (litFilesChanged ++
              (',' :: ' ' :: '+' :: (natLit i ++ (',' :: ' ' :: '−' :: natLit d)))) := by
          simp [summaryText, hf, hi, hd, joinParts]
        rw [htext]
        exact htail _ (matchNumPhrase_stop _ _ '+' _ (by decide) (by decide))
          (matchNumPhrase_stop _ _ '+' _ (by decide) (by decide))

/-! ## Claim C1: round-trip of the reconstructed stat line -/

def exC1raw : List Char := chars "1 files changed, 2 insertions(+)"

/-- C1, counterexample: for the raw commit text
"1 files changed, 2 insertions(+)" the parsed counters are
(1, 2, 0), but re-matching the parser's own reconstructed line
"1 files changed, +2" does not reproduce them (the `+2` part is not in
the shape the summary regex accepts), so the claimed round trip fails. -/
theorem claim_C1_counterexample :
    applySummary ⟨0, 0, 0⟩ (buildSummary exC1raw).text ≠
      ⟨((splitLines exC1raw).foldl diffLineStep initAcc).f,
       ((splitLines exC1raw).foldl diffLineStep initAcc).i,
       ((splitLines exC1raw).foldl diffLineStep initAcc).d⟩ := by
  decide

/-- C1, amended: for every raw commit text, re-matching the parser's own
reconstructed stat line reproduces `filesChanged`, while the re-parsed
`insertions` and `deletions` are always 0 (the reconstruction renders
them as `+N`/`−N`, which the summary matcher does not recognise); hence
the round trip reproduces all three values iff both were 0. -/
theorem claim_C1_roundtrip_amended (raw : List Char) :
    (buildSummary raw).text =
      summaryText ((splitLines raw).foldl diffLineStep initAcc).f
        ((splitLines raw).foldl diffLineStep initAcc).i
        ((splitLines raw).foldl diffLineStep initAcc).d ∧
    applySummary ⟨0, 0, 0⟩ (buildSummary raw).text =
      ⟨((splitLines raw).foldl diffLineStep initAcc).f, 0, 0⟩ ∧
    (applySummary ⟨0, 0, 0⟩ (buildSummary raw).text =
        ⟨((splitLines raw).foldl diffLineStep initAcc).f,
         ((splitLines raw).foldl diffLineStep initAcc).i,
         ((splitLines raw).foldl diffLineStep initAcc).d⟩ ↔
      ((splitLines raw).foldl diffLineStep initAcc).i = 0 ∧
      ((splitLines raw).foldl diffLineStep initAcc).d = 0) := by
  have htext : (buildSummary raw).text =
      summaryText ((splitLines raw).foldl diffLineStep initAcc).f
        ((splitLines raw).foldl diffLineStep initAcc).i
        ((splitLines raw).foldl diffLineStep initAcc).d := rfl
  refine ⟨htext, by rw [htext]; exact applySummary_text _ _ _, ?_⟩
  rw [htext, applySummary_text]
  constructor
  · intro h
    have h2 := congrArg SumTriple.i h
    have h3 := congrArg SumTriple.d h
    exact ⟨h2.symm, h3.symm⟩
  · intro h
    rw [h.1, h.2]

/-! ## Claim C5: parsing canonical summary lines -/

def insWordTail : List Char := ['i', 'n', 's', 'e', 'r', 't', 'i', 'o', 'n']

def delWordTail : List Char := ['d', 'e', 'l', 'e', 't', 'i', 'o', 'n']

theorem litSpInsertion_eq : litSpInsertion = ' ' :: insWordTail := rfl

theorem litSpDeletion_eq : litSpDeletion = ' ' :: delWordTail := rfl

theorem applySummary_shape (st : SumTriple) (a tail : List Char) (ha : a ≠ [])
    (hda : ∀ c ∈ a, jsDigit c = true) :
    applySummary st (a ++ (litFilesChanged ++ tail)) =
      { f := orPrev (parseDigits a) st.f
        i := match matchNumPhrase litSpInsertion litParenPlus tail with
          | some p => orPrev (parseDigits p.1) st.i
          | none => st.i
        d := match (match matchNumPhrase litSpInsertion litParenPlus tail with
              | some p => matchNumPhrase litSpDeletion litParenMinus p.2
              | none => matchNumPhrase litSpDeletion litParenMinus tail) with
          | some p => orPrev (parseDigits p.1) st.d
          | none => st.d } := by
  obtain ⟨y, ys, rfl⟩ := List.exists_cons_of_ne_nil ha
  have hat := matchSummaryAt_line (y :: ys) tail (by simp) hda
  cases hIns : matchNumPhrase litSpInsertion litParenPlus tail with
  | none =>
    cases hDel : matchNumPhrase litSpDeletion litParenMinus tail with
    | none =>
      rw [hIns, hDel] at hat
      simp only at hat
      have hsm := summaryMatch_cons_hit y (ys ++ (litFilesChanged ++ tail)) _ hat
      simp [applySummary, hsm]
    | some q =>
      rw [hIns, hDel] at hat
      simp only at hat
      have hsm := summaryMatch_cons_hit y (ys ++ (litFilesChanged ++ tail)) _ hat
      simp [applySummary, hsm]
  | some p =>
    cases hDel : matchNumPhrase litSpDeletion litParenMinus p.2 with
    | none =>
      rw [hIns] at hat
      simp only [hDel] at hat
      have hsm := summaryMatch_cons_hit y (ys ++ (litFilesChanged ++ tail)) _ hat
      simp [applySummary, hsm, hDel]
    | some q =>
      rw [hIns] at hat
      simp only [hDel] at hat
      have hsm := summaryMatch_cons_hit y (ys ++ (litFilesChanged ++ tail)) _ hat
      simp [applySummary, hsm, hDel]

/-- The canonical full summary line `"N files changed, I insertions(+), D deletions(-)"`. -/
def summaryLine (a b c : List Char) : List Char :=
  a ++ litFilesChanged ++ [',', ' '] ++ b ++ litSpInsertion ++ ['s'] ++ litParenPlus ++
  [',', ' '] ++ c ++ litSpDeletion ++ ['s'] ++ litParenMinus

/-- C5: parsing the summary line `"N files changed, I insertions(+), D deletions(-)"`
(all-digit groups) from the zero state yields filesChanged = N,
insertions = I, deletions = D; and on lines where the insertions and/or
deletions phrase is absent the corresponding counter keeps its prior
value for every prior state (it is not reset to zero). -/
theorem claim_C5_summary_line :
    (∀ a b c : List Char, a ≠ [] → b ≠ [] → c ≠ [] →
      (∀ x ∈ a, jsDigit x = true) → (∀ x ∈ b, jsDigit x = true) →
      (∀ x ∈ c, jsDigit x = true) →
      applySummary ⟨0, 0, 0⟩ (summaryLine a b c) =
        ⟨parseDigits a, parseDigits b, parseDigits c⟩) ∧
    (∀ (st : SumTriple) (a : List Char), a ≠ [] → (∀ x ∈ a, jsDigit x = true) →
      applySummary st (a ++ litFilesChanged) =
        ⟨orPrev (parseDigits a) st.f, st.i, st.d⟩) ∧
    (∀ (st : SumTriple) (a c : List Char), a ≠ [] → c ≠ [] →
      (∀ x ∈ a, jsDigit x = true) → (∀ x ∈ c, jsDigit x = true) →
      applySummary st
        (a ++ (litFilesChanged ++
          (',' :: ' ' :: (c ++ (litSpDeletion ++ 's' :: litParenMinus))))) =
        ⟨orPrev (parseDigits a) st.f, st.i, orPrev (parseDigits c) st.d⟩) ∧
    (∀ (st : SumTriple) (a b : List Char), a ≠ [] → b ≠ [] →
      (∀ x ∈ a, jsDigit x = true) → (∀ x ∈ b, jsDigit x = true) →
      applySummary st
        (a ++ (litFilesChanged ++
          (',' :: ' ' :: (b ++ (litSpInsertion ++ 's' :: litParenPlus))))) =
        ⟨orPrev (parseDigits a) st.f, orPrev (parseDigits b) st.i, st.d⟩) := by
  refine ⟨?_, ?_, ?_, ?_⟩
  · intro a b c ha hb hc hda hdb hdc
    have hDel := matchNumPhrase_canonical delWordTail litParenMinus c [] hc hdc
    rw [← litSpDeletion_eq] at hDel
    rw [List.append_nil] at hDel
    have hIns := matchNumPhrase_canonical insWordTail litParenPlus b
      (',' :: ' ' :: (c ++ (litSpDeletion ++ 's' :: litParenMinus))) hb hdb
    rw [← litSpInsertion_eq] at hIns
    have hshape : summaryLine a b c =
        a ++ (litFilesChanged ++
          (',' :: ' ' :: (b ++ (litSpInsertion ++
            's' :: (litParenPlus ++
              (',' :: ' ' :: (c ++ (litSpDeletion ++ 's' :: litParenMinus)))))))) := by
      simp [summaryLine]
    rw [hshape, applySummary_shape _ a _ ha hda, hIns]
    simp [hDel, orPrev_zero]
  · intro st a ha hda
    have h := applySummary_shape st a [] ha hda
    rw [List.append_nil] at h
    simpa [matchNumPhrase_nil] using h
  · intro st a c ha hc hda hdc
    have hDel := matchNumPhrase_canonical delWordTail litParenMinus c [] hc hdc
    rw [← litSpDeletion_eq] at hDel
    rw [List.append_nil] at hDel
    have hInsN : matchNumPhrase litSpInsertion litParenPlus
        (',' :: ' ' :: (c ++ (litSpDeletion ++ 's' :: litParenMinus))) = none :=
      matchNumPhrase_wrongWord litSpInsertion litParenPlus c
        (litSpDeletion ++ 's' :: litParenMinus) hc hdc rfl rfl
    rw [applySummary_shape st a _ ha hda, hInsN]
    simp [hDel]
  · intro st a b ha hb hda hdb
    have hIns := matchNumPhrase_canonical insWordTail litParenPlus b [] hb hdb
    rw [← litSpInsertion_eq] at hIns
    rw [List.append_nil] at hIns
    rw [applySummary_shape st a _ ha hda, hIns]
    simp [matchNumPhrase_nil]

/-- C5 witness: the spec's own example line
"3 files changed, 10 insertions(+), 4 deletions(-)" parses to (3, 10, 4),
and a line without the insertion/deletion phrases keeps the prior
counters (7, 8, 9) untouched apart from filesChanged. -/
theorem claim_C5_summary_line_witness :
    applySummary ⟨0, 0, 0⟩ (summaryLine ['3'] ['1', '0'] ['4']) = ⟨3, 10, 4⟩ ∧
    applySummary ⟨7, 8, 9⟩ (['5'] ++ litFilesChanged) = ⟨5, 8, 9⟩ := by
  constructor
  · have h := claim_C5_summary_line.1 ['3'] ['1', '0'] ['4'] (by decide) (by decide)
      (by decide) (by decide) (by decide) (by decide)
    simpa using h
  · have h := claim_C5_summary_line.2.1 ⟨7, 8, 9⟩ ['5'] (by decide) (by decide)
    simpa using h

/-! ## Claim C4: diff body retention and the 200-line cap -/

theorem chFold_invariant : ∀ (ls : List (List Char)) (b : Bool) (cs : List (List Char)),
    cs.length ≤ 200 →
    ls.foldl chStep ⟨b, cs.length, cs⟩ =
      ⟨b || ls.any (fun l => startsWithL litDiffGit l),
       cs.length + min (retainList b ls).length (200 - cs.length),
       cs ++ (retainList b ls).take (200 - cs.length)⟩ := by
  intro ls
  induction ls with
  | nil =>
    intro b cs h
    simp [retainList]
  | cons l ls ih =>
    intro b cs h
    rw [List.foldl_cons]
    have hstep : chStep ⟨b, cs.length, cs⟩ l =
        if (b || startsWithL litDiffGit l) && decide (cs.length < 200) && isRetainable l
        then ⟨b || startsWithL litDiffGit l, cs.length + 1, cs ++ [l]⟩
        else ⟨b || startsWithL litDiffGit l, cs.length, cs⟩ := by
      simp only [chStep]
      cases hg : startsWithL litDiffGit l <;> simp [hg]
    rw [hstep]
    by_cases hbr : ((b || startsWithL litDiffGit l) && isRetainable l) = true
    · have hb2 : (b || startsWithL litDiffGit l) = true ∧ isRetainable l = true := by
        simpa using hbr
      have hcons : retainList b (l :: ls) =
          l :: retainList (b || startsWithL litDiffGit l) ls := by
        simp [retainList, hb2.1, hb2.2]
      by_cases hlt : cs.length < 200
      · rw [if_pos (by simp [hb2.1, hb2.2, hlt])]
        have h1 : (cs ++ [l]).length ≤ 200 := by
          simp
          omega
        have hih := ih (b || startsWithL litDiffGit l) (cs ++ [l]) h1
        rw [List.length_append] at hih
        simp only [List.length_cons, List.length_nil, Nat.zero_add] at hih
        rw [hih, hcons]
        have hs : 200 - cs.length = (200 - (cs.length + 1)) + 1 := by omega
        simp only [ChScan.mk.injEq, List.any_cons]
        refine ⟨by cases b <;> simp, ?_, ?_⟩
        · simp only [List.length_cons]
          omega
        · rw [hs, List.take_succ_cons]
          simp
      · have h200 : cs.length = 200 := by omega
        rw [if_neg (by simp [hlt])]
        have hih := ih (b || startsWithL litDiffGit l) cs h
        rw [hih, hcons]
        simp only [ChScan.mk.injEq, List.any_cons]
        refine ⟨by cases b <;> simp, ?_, ?_⟩
        · simp only [List.length_cons, h200]
          omega
        · simp [h200]
    · rw [if_neg (by
        intro hcon
        have h3 : ((b || startsWithL litDiffGit l) = true ∧ decide (cs.length < 200) = true)
            ∧ isRetainable l = true := by simpa using hcon
        exact hbr (by simp [h3.1.1, h3.2]))]
      have hih := ih (b || startsWithL litDiffGit l) cs h
      rw [hih]
      have hcons : retainList b (l :: ls) =
          retainList (b || startsWithL litDiffGit l) ls := by
        simp only [retainList]
        rw [if_neg (by simpa using hbr)]
        simp
      rw [hcons]
      cases b <;> simp [List.any_cons]

theorem retainList_mem : ∀ (ls : List (List Char)) (b : Bool) (l : List Char),
    l ∈ retainList b ls → isRetainable l = true := by
  intro ls
  induction ls with
  | nil =>
    intro b l h
    simp [retainList] at h
  | cons x xs ih =>
    intro b l h
    simp only [retainList] at h
    rw [List.mem_append] at h
    cases h with
    | inl h1 =>
      by_cases hc : ((b || startsWithL litDiffGit x) && isRetainable x) = true
      · rw [if_pos hc] at h1
        simp at h1
        subst h1
        exact ((Bool.and_eq_true _ _) ▸ hc).2
      · rw [if_neg hc] at h1
        simp at h1
    | inr h2 => exact ih _ l h2

theorem collectChanges_spec (lines : List (List Char)) :
    collectChanges lines =
      if (retainList false lines).isEmpty then [noChangesMsg]
      else if 200 ≤ (retainList false lines).length then
        (retainList false lines).take 200 ++ [truncMsg]
      else retainList false lines := by
  unfold collectChanges
  have hf := chFold_invariant lines false [] (by simp)
  simp only [List.length_nil] at hf
  rw [hf]
  simp only [Nat.zero_add, Nat.sub_zero, List.nil_append]
  cases hR : retainList false lines with
  | nil => simp
  | cons r rs =>
    simp only [List.isEmpty_cons, Bool.false_eq_true, if_false]
    by_cases h2 : 200 ≤ (r :: rs).length
    · have htk : ((r :: rs).take 200).isEmpty = false := by
        rw [show (200 : Nat) = 199 + 1 from rfl, List.take_succ_cons]
        simp
      rw [htk]
      rw [if_neg (by simp)]
      rw [if_pos (by omega), if_pos h2]
    · have hle : (r :: rs).length ≤ 200 := by omega
      rw [List.take_of_length_le hle]
      simp only [List.isEmpty_cons, Bool.false_eq_true, if_false]
      rw [if_neg (by omega), if_neg h2]

/-- C4, amended: for every commit text at most 200 retainable body lines
are kept (exactly the first `min 200 count` of them); when 200 or more
retainable lines exist the kept lines are the first 200 followed by
exactly one truncation marker, and when fewer than 200 exist no
truncation marker appears (the marker is emitted already at exactly 200
retainable lines, not only beyond 200). -/
theorem claim_C4_truncation_amended (raw : List Char) :
    ((splitLines raw).foldl chStep ⟨false, 0, []⟩).lineCount =
      min (retainList false (splitLines raw)).length 200 ∧
    ((splitLines raw).foldl chStep ⟨false, 0, []⟩).changes =
      (retainList false (splitLines raw)).take 200 ∧
    ((retainList false (splitLines raw)).length < 200 →
      truncMsg ∉ collectChanges (splitLines raw)) ∧
    (200 ≤ (retainList false (splitLines raw)).length →
      collectChanges (splitLines raw) =
        (retainList false (splitLines raw)).take 200 ++ [truncMsg]) := by
  have hf := chFold_invariant (splitLines raw) false [] (by simp)
  simp only [List.length_nil] at hf
  rw [hf]
  refine ⟨by simp [Nat.min_comm], by simp, ?_, ?_⟩
  · intro hlt hmem
    rw [collectChanges_spec] at hmem
    by_cases he : (retainList false (splitLines raw)).isEmpty = true
    · rw [if_pos he] at hmem
      simp at hmem
      exact absurd (congrArg (fun l => l.take 4) hmem) (by decide)
    · rw [if_neg he, if_neg (by omega)] at hmem
      have := retainList_mem (splitLines raw) false truncMsg hmem
      exact absurd this (by decide)
  · intro hge
    rw [collectChanges_spec]
    have hne : (retainList false (splitLines raw)).isEmpty = false := by
      cases hR : retainList false (splitLines raw) with
      | nil => rw [hR] at hge; simp at hge
      | cons r rs => simp
    rw [hne]
    simp only [Bool.false_eq_true, if_false]
    rw [if_pos hge]

def exC4raw : List Char :=
  chars "diff --git a b" ++ (List.replicate 199 (chars "\n+a")).flatten

set_option maxRecDepth 100000 in
/-- C4, counterexample: a commit text with exactly 200 retainable body
lines ("200 or fewer") still gets the truncation marker appended,
contradicting the claim that the marker only appears beyond 200. -/
theorem claim_C4_counterexample :
    (retainList false (splitLines exC4raw)).length = 200 ∧
    truncMsg ∈ collectChanges (splitLines exC4raw) := by
  constructor
  · decide
  · decide

/-- C4 witness: a small commit text (two retainable lines) keeps both
lines and gets no truncation marker. -/
theorem claim_C4_truncation_amended_witness :
    (retainList false (splitLines (chars "diff --git a b\n+x\nctx"))).length < 200 ∧
    truncMsg ∉ collectChanges (splitLines (chars "diff --git a b\n+x\nctx")) :=
  ⟨by decide, (claim_C4_truncation_amended (chars "diff --git a b\n+x\nctx")).2.2.1 (by decide)⟩

/-! ## Claim C2: the byExtension aggregation -/

theorem find?_map_upd_self {v : Type} (k : List Char) (x : v) :
    ∀ m : List (List Char × v), m.any (fun q => q.1 = k) = true →
      (m.map (fun q => if q.1 = k then (k, x) else q)).find? (fun p => p.1 = k) =
        some (k, x) := by
  intro m
  induction m with
  | nil => intro h; simp at h
  | cons p m ih =>
    intro h
    by_cases hp : p.1 = k
    · rw [List.map_cons, if_pos hp]
      exact List.find?_cons_of_pos _ (by simp)
    · rw [List.map_cons, if_neg hp]
      rw [List.find?_cons_of_neg _ (by simp [hp])]
      refine ih ?_
      simp only [List.any_cons] at h
      have h3 : decide (p.1 = k) = true ∨ m.any (fun q => q.1 = k) = true :=
        (Bool.or_eq_true _ _) ▸ h
      cases h3 with
      | inl h4 => exact absurd (of_decide_eq_true h4) hp
      | inr h4 => exact h4

theorem find?_append_self {v : Type} (k : List Char) (x : v) :
    ∀ m : List (List Char × v), m.any (fun q => q.1 = k) = false →
      (m ++ [(k, x)]).find? (fun p => p.1 = k) = some (k, x) := by
  intro m
  induction m with
  | nil => simp [List.find?_cons_of_pos]
  | cons p m ih =>
    intro h
    simp only [List.any_cons, Bool.or_eq_false_iff] at h
    rw [List.cons_append, List.find?_cons_of_neg _ (by simp; simpa using h.1)]
    exact ih h.2

theorem mapGet_mapSet_self {v : Type} (m : List (List Char × v)) (k : List Char) (x : v) :
    mapGet (mapSet m k x) k = some x := by
  unfold mapSet mapGet
  by_cases hm : m.any (fun q => q.1 = k) = true
  · rw [if_pos hm, find?_map_upd_self k x m hm]
    rfl
  · have hm2 : m.any (fun q => q.1 = k) = false := by
      cases hx : m.any (fun q => q.1 = k)
      · rfl
      · exact absurd hx hm
    rw [if_neg hm, find?_append_self k x m hm2]
    rfl

theorem find?_map_upd_other {v : Type} (k k2 : List Char) (x : v) (h : k2 ≠ k) :
    ∀ m : List (List Char × v),
      (m.map (fun q => if q.1 = k then (k, x) else q)).find? (fun p => p.1 = k2) =
        m.find? (fun p => p.1 = k2) := by
  intro m
  induction m with
  | nil => rfl
  | cons p m ih =>
    by_cases hpk : p.1 = k
    · have hp2 : ¬p.1 = k2 := by rw [hpk]; exact fun hh => h hh.symm
      rw [List.map_cons, if_pos hpk]
      rw [List.find?_cons_of_neg _ (by simp; exact fun hh => h hh.symm),
        List.find?_cons_of_neg _ (by simp [hp2])]
      exact ih
    · rw [List.map_cons, if_neg hpk]
      by_cases hp2 : p.1 = k2
      · rw [List.find?_cons_of_pos _ (by simp [hp2]), List.find?_cons_of_pos _ (by simp [hp2])]
      · rw [List.find?_cons_of_neg _ (by simp [hp2]), List.find?_cons_of_neg _ (by simp [hp2])]
        exact ih

theorem find?_append_other {v : Type} (k k2 : List Char) (x : v) (h : k2 ≠ k) :
    ∀ m : List (List Char × v),
      (m ++ [(k, x)]).find? (fun p => p.1 = k2) = m.find? (fun p => p.1 = k2) := by
  intro m
  induction m with
  | nil =>
    rw [List.nil_append, List.find?_cons_of_neg _ (by simp; exact fun hh => h hh.symm)]
  | cons p m ih =>
    by_cases hp2 : p.1 = k2
    · rw [List.cons_append, List.find?_cons_of_pos _ (by simp [hp2]),
        List.find?_cons_of_pos _ (by simp [hp2])]
    · rw [List.cons_append, List.find?_cons_of_neg _ (by simp [hp2]),
        List.find?_cons_of_neg _ (by simp [hp2])]
      exact ih

theorem mapGet_mapSet_other {v : Type} (m : List (List Char × v)) (k k2 : List Char) (x : v)
    (h : k2 ≠ k) : mapGet (mapSet m k x) k2 = mapGet m k2 := by
  unfold mapSet mapGet
  by_cases hm : m.any (fun q => q.1 = k) = true
  · rw [if_pos hm, find?_map_upd_other k k2 x h m]
  · rw [if_neg hm, find?_append_other k k2 x h m]

/-- The triple of count / insertion sum / deletion sum of the details
that the code's extension key sends to bucket `k`. -/
def bucketOf (k : List Char) (dfs : List Detail) : Nat × Nat × Nat :=
  ((dfs.filter (fun df => extKey df.file = k)).length,
   ((dfs.filter (fun df => extKey df.file = k)).map (fun df => df.insertions)).sum,
   ((dfs.filter (fun df => extKey df.file = k)).map (fun df => df.deletions)).sum)

theorem byExt_general : ∀ (dfs : List Detail) (m : List (List Char × (Nat × Nat × Nat)))
    (k : List Char),
    mapGet (dfs.foldl
      (fun m df =>
        match mapGet m (extKey df.file) with
        | some v => mapSet m (extKey df.file) (v.1 + 1, v.2.1 + df.insertions, v.2.2 + df.deletions)
        | none => mapSet m (extKey df.file) (1, df.insertions, df.deletions)) m) k =
      match mapGet m k with
      | some v => some (v.1 + (bucketOf k dfs).1, v.2.1 + (bucketOf k dfs).2.1,
          v.2.2 + (bucketOf k dfs).2.2)
      | none =>
        if (dfs.filter (fun df => extKey df.file = k)).isEmpty then none
        else some (bucketOf k dfs) := by
  intro dfs
  induction dfs with
  | nil =>
    intro m k
    simp only [List.foldl_nil, bucketOf, List.filter_nil, List.length_nil, List.map_nil,
      List.sum_nil, List.isEmpty_nil, if_true]
    cases mapGet m k <;> simp
  | cons df dfs ih =>
    intro m k
    rw [List.foldl_cons]
    by_cases hk : extKey df.file = k
    · have hfil : (df :: dfs).filter (fun d => extKey d.file = k) =
          df :: dfs.filter (fun d => extKey d.file = k) := by
        simp [List.filter_cons, hk]
      cases hget : mapGet m k with
      | some v =>
        have hstep : (match mapGet m (extKey df.file) with
            | some v => mapSet m (extKey df.file) (v.1 + 1, v.2.1 + df.insertions, v.2.2 + df.deletions)
            | none => mapSet m (extKey df.file) (1, df.insertions, df.deletions)) =
            mapSet m k (v.1 + 1, v.2.1 + df.insertions, v.2.2 + df.deletions) := by
          rw [hk, hget]
        rw [hstep, ih]
        rw [mapGet_mapSet_self]
        simp only [bucketOf, hfil, List.length_cons, List.map_cons, List.sum_cons]
        cases hfe : dfs.filter (fun d => extKey d.file = k) <;> simp <;> omega
      | none =>
        have hstep : (match mapGet m (extKey df.file) with
            | some v => mapSet m (extKey df.file) (v.1 + 1, v.2.1 + df.insertions, v.2.2 + df.deletions)
            | none => mapSet m (extKey df.file) (1, df.insertions, df.deletions)) =
            mapSet m k (1, df.insertions, df.deletions) := by
          rw [hk, hget]
        rw [hstep, ih]
        rw [mapGet_mapSet_self]
        simp only [bucketOf, hfil, List.length_cons, List.map_cons, List.sum_cons,
          List.isEmpty_cons, Bool.false_eq_true, if_false]
        cases hfe : dfs.filter (fun d => extKey d.file = k) <;> simp <;> omega
    · have hfil : (df :: dfs).filter (fun d => extKey d.file = k) =
          dfs.filter (fun d => extKey d.file = k) := by
        simp [List.filter_cons, hk]
      have hget2 : mapGet ((match mapGet m (extKey df.file) with
          | some v => mapSet m (extKey df.file) (v.1 + 1, v.2.1 + df.insertions, v.2.2 + df.deletions)
          | none => mapSet m (extKey df.file) (1, df.insertions, df.deletions))) k =
          mapGet m k := by
        cases hg : mapGet m (extKey df.file) <;>
          simp [mapGet_mapSet_other _ _ _ _ (fun hh => hk hh.symm)]
      rw [ih, hget2]
      simp only [bucketOf, hfil]

theorem splitOnChar_ne_nil (sep : Char) : ∀ l : List Char, splitOnChar sep l ≠ [] := by
  intro l
  induction l with
  | nil => simp [splitOnChar]
  | cons c r ih =>
    simp only [splitOnChar]
    cases h : splitOnChar sep r with
    | nil => simp
    | cons p ps =>
      by_cases hc : c = sep <;> simp [hc]

theorem splitOnChar_not_mem (sep : Char) : ∀ l : List Char, sep ∉ l →
    splitOnChar sep l = [l] := by
  intro l
  induction l with
  | nil => intro h; rfl
  | cons c r ih =>
    intro h
    have hc : ¬c = sep := fun hh => h (by simp [hh])
    have hr : sep ∉ r := fun hh => h (List.mem_cons_of_mem c hh)
    simp only [splitOnChar, ih hr]
    simp [hc]

theorem splitOnChar_append (sep : Char) : ∀ (a rest : List Char), sep ∉ a →
    splitOnChar sep (a ++ sep :: rest) = a :: splitOnChar sep rest := by
  intro a
  induction a with
  | nil =>
    intro rest h
    simp only [List.nil_append, splitOnChar]
    cases hs : splitOnChar sep rest with
    | nil => exact absurd hs (splitOnChar_ne_nil sep rest)
    | cons p ps => simp
  | cons c a ih =>
    intro rest h
    have hc : ¬c = sep := fun hh => h (by simp [hh])
    have ha : sep ∉ a := fun hh => h (List.mem_cons_of_mem c hh)
    simp only [List.cons_append, splitOnChar, List.append_eq]
    rw [ih rest ha]
    simp [hc]

theorem joinDots_cons_cons (c : Char) (p : List Char) (ps : List (List Char)) :
    joinDots ((c :: p) :: ps) = c :: joinDots (p :: ps) := by
  cases ps <;> simp [joinDots]

theorem joinDots_splitOnChar : ∀ l : List Char, joinDots (splitOnChar '.' l) = l := by
  intro l
  induction l with
  | nil => rfl
  | cons c r ih =>
    simp only [splitOnChar]
    cases h : splitOnChar '.' r with
    | nil => exact absurd h (splitOnChar_ne_nil '.' r)
    | cons p ps =>
      rw [h] at ih
      by_cases hc : c = '.'
      · subst hc
        simp only [if_pos rfl, joinDots]
        cases ps <;> simpa using ih
      · have h2 : joinDots ((c :: p) :: ps) = c :: r := by rw [joinDots_cons_cons, ih]
        simpa [hc] using h2

/-- C2, amended: `byExtension` keys every detail entry by the substring
after the first `.` of the final path segment (the remaining dot-parts
joined by `.`), sending entries whose final segment has no `.` to the
reserved `noext` bucket; each bucket holds the count and the insertion
and deletion sums of exactly the entries mapped to its key. -/
theorem claim_C2_byExtension_amended :
    (∀ (dfs : List Detail) (k : List Char),
      mapGet (byExtension dfs) k =
        if (dfs.filter (fun df => extKey df.file = k)).isEmpty then none
        else some (bucketOf k dfs)) ∧
    (∀ file : List Char, '.' ∉ ((splitOnChar '/' file).getLast?).getD [] →
      extKey file = chars "noext") ∧
    (∀ a b : List Char, '.' ∉ a → ('/' : Char) ∉ a → ('/' : Char) ∉ b →
      extKey (a ++ '.' :: b) = if b.isEmpty then chars "noext" else b) := by
  refine ⟨?_, ?_, ?_⟩
  · intro dfs k
    have h := byExt_general dfs [] k
    unfold byExtension
    rw [h]
    rfl
  · intro file h
    simp only [extKey]
    rw [splitOnChar_not_mem '.' _ h]
    simp [joinDots]
  · intro a b ha hsa hsb
    have hsl : ('/' : Char) ∉ a ++ '.' :: b := by
      intro hm
      rw [List.mem_append] at hm
      cases hm with
      | inl h1 => exact hsa h1
      | inr h2 =>
        cases h2 with
        | tail _ h3 => exact hsb h3
    simp only [extKey]
    rw [splitOnChar_not_mem '/' _ hsl]
    simp only [List.getLast?_singleton, Option.getD_some]
    rw [splitOnChar_append '.' a b ha]
    simp only [List.drop_succ_cons, List.drop_zero, joinDots_splitOnChar]

def exC2detail : Detail := ⟨chars "a.tar.gz", 'A', 3, 4, false, none, none⟩

/-- C2, counterexample: a file named `a.tar.gz` is aggregated under the
key `tar.gz` (substring after the first dot), not under `gz` (substring
after the last dot) as the claim states. -/
theorem claim_C2_counterexample :
    mapGet (byExtension [exC2detail]) (chars "gz") = none ∧
    mapGet (byExtension [exC2detail]) (chars "tar.gz") = some (1, 3, 4) := by
  constructor
  · decide
  · decide

/-- C2 witness: a file whose final segment has no dot lands in the
`noext` bucket. -/
theorem claim_C2_byExtension_amended_witness :
    extKey (chars "dir/Makefile") = chars "noext" :=
  claim_C2_byExtension_amended.2.1 (chars "dir/Makefile") (by decide)

/-! ## Claim C6: rename lines and the numstat lookup order -/

theorem splitSep_aux : ∀ (nr acc old : List Char),
    (∀ c ∈ nr, ¬c = '\t') → old ≠ [] → nr.reverse ++ acc ≠ [] →
    splitSep (nr ++ '\t' :: old.reverse) acc = some (old, nr.reverse ++ acc) := by
  intro nr
  induction nr with
  | nil =>
    intro acc old hnr ho hacc
    simp only [List.reverse_nil, List.nil_append] at hacc ⊢
    have hor : old.reverse.isEmpty = false := by
      cases old with
      | nil => exact absurd rfl ho
      | cons x xs => simp
    have hae : acc.isEmpty = false := by
      cases acc with
      | nil => exact absurd rfl hacc
      | cons a as => simp
    simp [splitSep, hae, hor]
  | cons c nr ih =>
    intro acc old hnr ho hacc
    have hc : ¬c = '\t' := hnr c (List.mem_cons_self c nr)
    simp only [List.cons_append, splitSep, if_neg hc, List.append_eq]
    have hne : nr.reverse ++ c :: acc ≠ [] := by simp
    rw [ih (c :: acc) old (fun x hx => hnr x (List.mem_cons_of_mem c hx)) ho hne]
    simp [List.reverse_cons, List.append_assoc]

theorem splitSep_main (old new : List Char) (hto : ('\t' : Char) ∉ old)
    (htn : ('\t' : Char) ∉ new) (ho : old ≠ []) (hn : new ≠ []) :
    splitSep ((old ++ '\t' :: new).reverse) [] = some (old, new) := by
  have hrev : (old ++ '\t' :: new).reverse = new.reverse ++ '\t' :: old.reverse := by
    simp [List.reverse_append, List.reverse_cons, List.append_assoc]
  rw [hrev]
  have h := splitSep_aux new.reverse [] old
    (fun c hc he => htn (List.mem_reverse.mp (he ▸ hc)))
    ho (by simpa using hn)
  rw [h]
  simp

theorem numstatMatch_R (r : List Char) : numstatMatch ('R' :: r) = none := rfl

theorem renameMatch_shaped (sc old new : List Char) (hsc : ∀ c ∈ sc, jsDigit c = true)
    (hto : ('\t' : Char) ∉ old) (htn : ('\t' : Char) ∉ new) (ho : old ≠ []) (hn : new ≠ [])
    (hdo : ∀ c ∈ old, jsDot c = true) (hdn : ∀ c ∈ new, jsDot c = true) :
    renameMatch ('R' :: (sc ++ '\t' :: (old ++ '\t' :: new))) =
      some (jsTrim old, jsTrim new) := by
  have hdg : takeDigits (sc ++ '\t' :: (old ++ '\t' :: new)) =
      (sc, '\t' :: (old ++ '\t' :: new)) :=
    takeDigits_append _ _ hsc (takeDigits_cons_not _ _ (by decide))
  have hall : ((old ++ '\t' :: new).all jsDot) = true := by
    rw [List.all_append]
    rw [List.all_cons]
    simp only [Bool.and_eq_true]
    refine ⟨List.all_eq_true.mpr (fun c hc => hdo c hc), by decide,
      List.all_eq_true.mpr (fun c hc => hdn c hc)⟩
  simp only [renameMatch, hdg, hall, if_pos]
  rw [splitSep_main old new hto htn ho hn]

theorem diffLineStep_rename (st : DiffAcc) (l : List Char) (fr dst : List Char)
    (hns : numstatMatch l = none) (hrm : renameMatch l = some (fr, dst)) :
    (diffLineStep st l).renamed = st.renamed ++ [(fr, dst)] ∧
    (diffLineStep st l).added = st.added ∧
    (diffLineStep st l).modified = st.modified ∧
    (diffLineStep st l).deleted = st.deleted ∧
    (diffLineStep st l).numstat = st.numstat := by
  cases hs : summaryMatch l with
  | none =>
    cases hfl : fileLineMatch l with
    | none => simp [diffLineStep, hs, hfl, hns, hrm]
    | some q => simp [diffLineStep, hs, hfl, hns, hrm]
  | some g =>
    obtain ⟨g1, g2, g3⟩ := g
    cases hfl : fileLineMatch l with
    | none => simp [diffLineStep, hs, hfl, hns, hrm]
    | some q => simp [diffLineStep, hs, hfl, hns, hrm]

/-- C6: a rename line `R<score>\t<old>\t<new>` is classified as a rename
(and only as a rename: the added/modified/deleted lists and the numstat
map are untouched), recording `{from := old, to := new}`; the rename's
FileChange gets status `R`, the two paths, and numstat counts looked up
by destination path first, then source path, defaulting to zeros and
non-binary; `detailFiles` emits exactly one such entry per recorded
rename. -/
theorem claim_C6_rename :
    (∀ (st : DiffAcc) (sc old new : List Char),
      (∀ c ∈ sc, jsDigit c = true) →
      ('\t' : Char) ∉ old → ('\t' : Char) ∉ new → old ≠ [] → new ≠ [] →
      (∀ c ∈ old, jsDot c = true) → (∀ c ∈ new, jsDot c = true) →
      (diffLineStep st ('R' :: (sc ++ '\t' :: (old ++ '\t' :: new)))).renamed =
        st.renamed ++ [(jsTrim old, jsTrim new)] ∧
      (diffLineStep st ('R' :: (sc ++ '\t' :: (old ++ '\t' :: new)))).added = st.added ∧
      (diffLineStep st ('R' :: (sc ++ '\t' :: (old ++ '\t' :: new)))).modified = st.modified ∧
      (diffLineStep st ('R' :: (sc ++ '\t' :: (old ++ '\t' :: new)))).deleted = st.deleted ∧
      (diffLineStep st ('R' :: (sc ++ '\t' :: (old ++ '\t' :: new)))).numstat = st.numstat) ∧
    (∀ (ns : List (List Char × NumEntry)) (fr dst : List Char) (e : NumEntry),
      mapGet ns dst = some e →
      renameDetail ns fr dst = ⟨dst, 'R', e.ins, e.del, e.binary, some fr, some dst⟩) ∧
    (∀ (ns : List (List Char × NumEntry)) (fr dst : List Char) (e : NumEntry),
      mapGet ns dst = none → mapGet ns fr = some e →
      renameDetail ns fr dst = ⟨dst, 'R', e.ins, e.del, e.binary, some fr, some dst⟩) ∧
    (∀ (ns : List (List Char × NumEntry)) (fr dst : List Char),
      mapGet ns dst = none → mapGet ns fr = none →
      renameDetail ns fr dst = ⟨dst, 'R', 0, 0, false, some fr, some dst⟩) ∧
    (∀ st : DiffAcc, detailFiles st =
      st.added.map (fun f => pushDetail st.numstat f 'A') ++
      st.modified.map (fun f => pushDetail st.numstat f 'M') ++
      st.deleted.map (fun f => pushDetail st.numstat f 'D') ++
      st.renamed.map (fun p => renameDetail st.numstat p.1 p.2)) := by
  refine ⟨?_, ?_, ?_, ?_, fun st => rfl⟩
  · intro st sc old new hsc hto htn ho hn hdo hdn
    exact diffLineStep_rename st _ _ _ (numstatMatch_R _)
      (renameMatch_shaped sc old new hsc hto htn ho hn hdo hdn)
  · intro ns fr dst e h
    simp [renameDetail, h, Option.orElse]
  · intro ns fr dst e h1 h2
    simp [renameDetail, h1, h2, Option.orElse]
  · intro ns fr dst h1 h2
    simp [renameDetail, h1, h2, Option.orElse]

def exC6ns : List (List Char × NumEntry) := [(chars "new/a.txt", ⟨5, 2, false⟩)]

def exC6st : DiffAcc := ⟨0, 0, 0, [], exC6ns, [], [], [], []⟩

/-- C6 witness: the spec's own example `R100\told/a.txt\tnew/a.txt` with
a numstat entry for the destination path. -/
theorem claim_C6_rename_witness :
    (diffLineStep exC6st
        ('R' :: (chars "100" ++ '\t' :: (chars "old/a.txt" ++ '\t' :: chars "new/a.txt")))).renamed =
      exC6st.renamed ++ [(jsTrim (chars "old/a.txt"), jsTrim (chars "new/a.txt"))] ∧
    renameDetail exC6ns (chars "old/a.txt") (chars "new/a.txt") =
      ⟨chars "new/a.txt", 'R', 5, 2, false, some (chars "old/a.txt"), some (chars "new/a.txt")⟩ := by
  constructor
  · exact (claim_C6_rename.1 exC6st (chars "100") (chars "old/a.txt") (chars "new/a.txt")
      (by decide) (by decide) (by decide) (by decide) (by decide) (by decide) (by decide)).1
  · exact claim_C6_rename.2.1 exC6ns (chars "old/a.txt") (chars "new/a.txt") ⟨5, 2, false⟩
      (by decide)

/-! ## Claim C8: contributor ordering (stable descending sort) -/

theorem mem_insertDescBy {α : Type} (key : α → Nat) (x z : α) :
    ∀ l : List α, z ∈ insertDescBy key x l ↔ z = x ∨ z ∈ l := by
  intro l
  induction l with
  | nil => simp [insertDescBy]
  | cons y ys ih =>
    by_cases h : key y ≤ key x
    · simp [insertDescBy, h]
    · simp only [insertDescBy, if_neg h, List.mem_cons, ih]
      tauto

theorem pairwise_insertDescBy {α : Type} (key : α → Nat) (x : α) :
    ∀ l : List α, l.Pairwise (fun a b => key b ≤ key a) →
      (insertDescBy key x l).Pairwise (fun a b => key b ≤ key a) := by
  intro l
  induction l with
  | nil => intro h; simp [insertDescBy]
  | cons y ys ih =>
    intro h
    rw [List.pairwise_cons] at h
    by_cases hk : key y ≤ key x
    · rw [insertDescBy, if_pos hk, List.pairwise_cons]
      refine ⟨?_, List.pairwise_cons.mpr h⟩
      intro z hz
      rcases List.mem_cons.mp hz with rfl | hz2
      · exact hk
      · exact Nat.le_trans (h.1 z hz2) hk
    · rw [insertDescBy, if_neg hk, List.pairwise_cons]
      refine ⟨?_, ih h.2⟩
      intro z hz
      rcases (mem_insertDescBy key x z ys).mp hz with rfl | hz2
      · omega
      · exact h.1 z hz2

theorem pairwise_jsSortDescBy {α : Type} (key : α → Nat) :
    ∀ l : List α, (jsSortDescBy key l).Pairwise (fun a b => key b ≤ key a) := by
  intro l
  induction l with
  | nil => simp [jsSortDescBy]
  | cons x xs ih => exact pairwise_insertDescBy key x _ ih

theorem filter_insertDescBy {α : Type} (key : α → Nat) (x : α) (n : Nat) :
    ∀ l : List α,
      (insertDescBy key x l).filter (fun a => key a = n) =
        if key x = n then x :: l.filter (fun a => key a = n)
        else l.filter (fun a => key a = n) := by
  intro l
  induction l with
  | nil =>
    by_cases hx : key x = n <;> simp [insertDescBy, List.filter_cons, hx]
  | cons y ys ih =>
    by_cases hk : key y ≤ key x
    · rw [insertDescBy, if_pos hk, List.filter_cons]
      by_cases hx : key x = n
      · rw [if_pos (by simp [hx]), if_pos hx]
      · rw [if_neg (by simp [hx]), if_neg hx]
    · rw [insertDescBy, if_neg hk, List.filter_cons, List.filter_cons, ih]
      by_cases hx : key x = n
      · have hy : ¬(key y = n) := by omega
        simp [hx, hy]
      · simp [hx]

theorem filter_jsSortDescBy {α : Type} (key : α → Nat) (n : Nat) :
    ∀ l : List α,
      (jsSortDescBy key l).filter (fun a => key a = n) = l.filter (fun a => key a = n) := by
  intro l
  induction l with
  | nil => rfl
  | cons x xs ih =>
    rw [jsSortDescBy, filter_insertDescBy, List.filter_cons]
    by_cases hx : key x = n <;> simp [hx, ih]

theorem statLineUpd_username (con : Contributor) (l : List Char) :
    (statLineUpd con l).username = con.username := by
  unfold statLineUpd
  cases insDelMatch l with
  | some p => rfl
  | none =>
    by_cases h1 : containsSub litInsertionWord l = true
    · simp only [h1, if_true]
      cases searchNumWord litSpInsertion l <;> rfl
    · simp only [h1, if_false]
      by_cases h2 : containsSub litDeletionWord l = true
      · simp only [h2, if_true]
        cases searchNumWord litSpDeletion l <;> rfl
      · simp [h1, h2]

theorem applyStatLines_username (con : Contributor) (raw : List Char) :
    (applyStatLines con raw).username = con.username := by
  unfold applyStatLines
  generalize splitLines raw = ls
  induction ls generalizing con with
  | nil => rfl
  | cons l ls ih => rw [List.foldl_cons, ih, statLineUpd_username]

theorem contribUpd_username (fetch : CommitRec → Except (List Char) (List Char))
    (c : CommitRec) (con : Contributor) :
    ((fun (con : Contributor) =>
      match fetch c with
      | Except.ok raw => applyStatLines { con with
          commits := con.commits + 1
          commitHashes := con.commitHashes ++ [c.hash] } raw
      | Except.error _ => { con with
          commits := con.commits + 1
          commitHashes := con.commitHashes ++ [c.hash] }) con).username = con.username := by
  cases fetch c with
  | ok raw => exact applyStatLines_username _ raw
  | error e => rfl

theorem any_map_username (m : List Contributor) (u : List Char) :
    ((m.map (fun c => c.username)).any (fun x => x = u)) =
      m.any (fun c => c.username = u) := by
  induction m with
  | nil => rfl
  | cons p ps ih => simp [List.any_cons, ih]

theorem map_username_upd (u : List Char) (f : Contributor → Contributor)
    (hf : ∀ c, (f c).username = c.username) :
    ∀ m : List Contributor,
      (m.map (fun c => if c.username = u then f c else c)).map (fun c => c.username) =
        m.map (fun c => c.username) := by
  intro m
  induction m with
  | nil => rfl
  | cons p ps ih =>
    simp only [List.map_cons, ih]
    by_cases hp : p.username = u
    · rw [if_pos hp, hf p]
    · rw [if_neg hp]

theorem map_username_ensure (m : List Contributor) (u : List Char)
    (f : Contributor → Contributor) (hf : ∀ c, (f c).username = c.username) :
    (ensureAndUpdate m u f).map (fun c => c.username) =
      if (m.map (fun c => c.username)).any (fun x => x = u) then
        m.map (fun c => c.username)
      else m.map (fun c => c.username) ++ [u] := by
  unfold ensureAndUpdate
  rw [any_map_username]
  by_cases hm : m.any (fun c => c.username = u) = true
  · rw [if_pos hm, if_pos hm]
    exact map_username_upd u f hf m
  · rw [if_neg hm, if_neg hm, List.map_append, List.map_cons]
    simp [hf]

theorem contribFold_usernames (fetch : CommitRec → Except (List Char) (List Char)) :
    ∀ (hist : List CommitRec) (m : List Contributor),
      (hist.foldl (contribStep fetch) m).map (fun c => c.username) =
        firstSeenFrom (m.map (fun c => c.username)) (hist.map (fun c => c.author)) := by
  intro hist
  induction hist with
  | nil => intro m; rfl
  | cons c hist ih =>
    intro m
    rw [List.foldl_cons, ih, List.map_cons]
    have hstep : (contribStep fetch m c).map (fun x => x.username) =
        if (m.map (fun x => x.username)).any (fun x => x = c.author) then
          m.map (fun x => x.username)
        else m.map (fun x => x.username) ++ [c.author] := by
      unfold contribStep
      exact map_username_ensure m c.author _ (contribUpd_username fetch c)
    rw [hstep]
    by_cases hm : ((m.map (fun x => x.username)).any (fun x => x = c.author)) = true
    · rw [if_pos hm, firstSeenFrom, if_pos hm]
    · rw [if_neg hm, firstSeenFrom, if_neg hm]

/-- C8: `aggregateContributors` returns the contributors in descending
order of commit count; contributors with equal commit counts keep the
order in which their display names were first seen in the history (the
filtered username sequence per count is a sublist of the first-seen
sequence); e.g. authors [alice, bob, alice] yield [alice(2), bob(1)]. -/
theorem claim_C8_contributor_order :
    (∀ (history : List CommitRec) (fetch : CommitRec → Except (List Char) (List Char)),
      (aggregateContributors history fetch).Pairwise (fun a b => b.commits ≤ a.commits) ∧
      (∀ n : Nat,
        (((aggregateContributors history fetch).filter
            (fun c => c.commits = n)).map (fun c => c.username)).Sublist
          (firstSeenFrom [] (history.map (fun c => c.author))))) ∧
    ((aggregateContributors
        [⟨chars "h1", chars "alice", [], []⟩, ⟨chars "h2", chars "bob", [], []⟩,
         ⟨chars "h3", chars "alice", [], []⟩]
        (fun _ => Except.error [])).map (fun c => (c.username, c.commits)) =
      [(chars "alice", 2), (chars "bob", 1)]) := by
  constructor
  · intro history fetch
    constructor
    · exact pairwise_jsSortDescBy (fun c : Contributor => c.commits) _
    · intro n
      unfold aggregateContributors
      rw [filter_jsSortDescBy (fun c : Contributor => c.commits) n]
      have hsub : ((history.foldl (contribStep fetch) []).filter
          (fun c => c.commits = n)).Sublist (history.foldl (contribStep fetch) []) :=
        List.filter_sublist _
      have hmap := hsub.map (fun c => c.username)
      have husers := contribFold_usernames fetch history []
      simp only [List.map_nil] at husers
      rw [husers] at hmap
      exact hmap
  · decide

/-! ## Claims C7, C9, C10: the diffs route and per-commit failures -/

theorem diffsFor_of_user_ne_nil (u : List Char) (history : List CommitRec)
    (fetch : CommitRec → Except (List Char) (List Char)) (now : List Char)
    (h : history.filter (fun c => c.author = u) ≠ []) :
    diffsFor u history fetch now =
      ((history.filter (fun c => c.author = u)).take 5).map (fun c => diffEntry c (fetch c)) := by
  unfold diffsFor
  cases hf : history.filter (fun c => c.author = u) with
  | nil => exact absurd hf h
  | cons c cs =>
    rw [show (5 : Nat) = 4 + 1 from rfl, List.take_succ_cons]
    simp

theorem findUser_map_upd (u : List Char) (f : Contributor → Contributor)
    (hf : ∀ c, (f c).username = c.username) :
    ∀ m : List Contributor,
      (m.map (fun c => if c.username = u then f c else c)).find? (fun c => c.username = u) =
        (m.find? (fun c => c.username = u)).map f := by
  intro m
  induction m with
  | nil => rfl
  | cons p ps ih =>
    by_cases hp : p.username = u
    · rw [List.map_cons, if_pos hp]
      rw [List.find?_cons_of_pos _ (by simp [hf p, hp]),
        List.find?_cons_of_pos _ (by simp [hp])]
      rfl
    · rw [List.map_cons, if_neg hp]
      rw [List.find?_cons_of_neg _ (by simp [hp]), List.find?_cons_of_neg _ (by simp [hp])]
      exact ih

theorem findUser_append_new (u : List Char) (x : Contributor) (hx : x.username = u) :
    ∀ m : List Contributor, m.any (fun c => c.username = u) = false →
      (m ++ [x]).find? (fun c => c.username = u) = some x := by
  intro m
  induction m with
  | nil =>
    intro h
    rw [List.nil_append, List.find?_cons_of_pos _ (by simp [hx])]
  | cons p ps ih =>
    intro h
    simp only [List.any_cons, Bool.or_eq_false_iff] at h
    rw [List.cons_append, List.find?_cons_of_neg _ (by simp; simpa using h.1)]
    exact ih (h.2)

theorem contribStep_error (m : List Contributor) (c : CommitRec)
    (fetch : CommitRec → Except (List Char) (List Char)) (msg : List Char)
    (hf : fetch c = Except.error msg) :
    findUser (contribStep fetch m c) c.author =
      some (match findUser m c.author with
            | some con => { con with
                commits := con.commits + 1
                commitHashes := con.commitHashes ++ [c.hash] }
            | none => ⟨c.author, 1, 0, 0, [c.hash]⟩) := by
  unfold contribStep
  simp only [hf]
  unfold ensureAndUpdate findUser
  by_cases hm : m.any (fun x => x.username = c.author) = true
  · rw [if_pos hm]
    cases hfind : m.find? (fun x => x.username = c.author) with
    | none =>
      rw [List.find?_eq_none] at hfind
      rcases List.any_eq_true.mp hm with ⟨x, hxm, hxu⟩
      exact absurd (of_decide_eq_true hxu) (by simpa using hfind x hxm)
    | some con =>
      have hmap := findUser_map_upd c.author
        (fun con => { con with
          commits := con.commits + 1
          commitHashes := con.commitHashes ++ [c.hash] }) (fun _ => rfl) m
      rw [hfind] at hmap
      exact hmap
  · rw [if_neg hm]
    have hnone : m.find? (fun x => x.username = c.author) = none := by
      rw [List.find?_eq_none]
      intro x hxm hxu
      exact hm (List.any_eq_true.mpr ⟨x, hxm, hxu⟩)
    rw [findUser_append_new c.author _ rfl m (by
      cases hx : m.any (fun x => x.username = c.author)
      · rfl
      · exact absurd hx hm)]
    rw [hnone]
    rfl

/-- C7: a per-commit fetch failure does not abort the others: the diffs
route still yields one entry per processed commit in history order (the
failing one with zeroed summary counters, an error text and a
placeholder changes list), and in contributor aggregation the failing
commit still bumps the author's commit count and appends its hash while
leaving additions and deletions unchanged. -/
theorem claim_C7_per_commit_failure :
    (∀ (u : List Char) (history : List CommitRec)
        (fetch : CommitRec → Except (List Char) (List Char)) (now : List Char),
      history.filter (fun c => c.author = u) ≠ [] →
      diffsFor u history fetch now =
        ((history.filter (fun c => c.author = u)).take 5).map
          (fun c => diffEntry c (fetch c))) ∧
    (∀ (c : CommitRec) (msg : List Char),
      (diffEntry c (Except.error msg)).commit = c.hash.take 7 ∧
      (diffEntry c (Except.error msg)).summary = some ⟨errText msg, 0, 0, 0, [], none⟩ ∧
      (diffEntry c (Except.error msg)).changes = [errLine1 msg, errLine2]) ∧
    (∀ (m : List Contributor) (c : CommitRec)
        (fetch : CommitRec → Except (List Char) (List Char)) (msg : List Char),
      fetch c = Except.error msg →
      findUser (contribStep fetch m c) c.author =
        some (match findUser m c.author with
              | some con => { con with
                  commits := con.commits + 1
                  commitHashes := con.commitHashes ++ [c.hash] }
              | none => ⟨c.author, 1, 0, 0, [c.hash]⟩)) := by
  refine ⟨diffsFor_of_user_ne_nil, fun c msg => ⟨rfl, rfl, rfl⟩, contribStep_error⟩

def exC7commit : CommitRec := ⟨chars "abcdef0123", chars "al", chars "m", chars "d"⟩

/-- C7 witness: with a one-commit history whose fetch fails, the diffs
route returns the mapped error entry and the contributor map counts the
commit with zero additions and deletions. -/
theorem claim_C7_per_commit_failure_witness :
    diffsFor (chars "al") [exC7commit] (fun _ => Except.error (chars "boom")) (chars "T") =
      (([exC7commit].filter (fun c => c.author = chars "al")).take 5).map
        (fun c => diffEntry c ((fun _ => Except.error (chars "boom")) c)) ∧
    findUser (contribStep (fun _ => Except.error (chars "boom")) [] exC7commit)
        exC7commit.author = some ⟨chars "al", 1, 0, 0, [chars "abcdef0123"]⟩ := by
  constructor
  · exact claim_C7_per_commit_failure.1 (chars "al") [exC7commit]
      (fun _ => Except.error (chars "boom")) (chars "T") (by decide)
  · have h := claim_C7_per_commit_failure.2.2 [] exC7commit
      (fun _ => Except.error (chars "boom")) (chars "boom") rfl
    simpa using h

/-- C9: the diffs route processes at most the first five of the
contributor's commits in history order (the result is the map over
`take 5` of the filtered history) and never returns more than five
commit entries. -/
theorem claim_C9_first_five :
    (∀ (u : List Char) (history : List CommitRec)
        (fetch : CommitRec → Except (List Char) (List Char)) (now : List Char),
      (diffsFor u history fetch now).length ≤ 5) ∧
    (∀ (u : List Char) (history : List CommitRec)
        (fetch : CommitRec → Except (List Char) (List Char)) (now : List Char),
      history.filter (fun c => c.author = u) ≠ [] →
      diffsFor u history fetch now =
        ((history.filter (fun c => c.author = u)).take 5).map
          (fun c => diffEntry c (fetch c))) := by
  refine ⟨?_, diffsFor_of_user_ne_nil⟩
  intro u history fetch now
  unfold diffsFor
  by_cases he : (((history.filter (fun c => c.author = u)).take 5).map
      (fun c => diffEntry c (fetch c))).isEmpty = true
  · rw [if_pos he]
    simp
  · rw [if_neg he]
    rw [List.length_map, List.length_take]
    omega

def exC9commit (n : Nat) : CommitRec := ⟨natLit n, chars "al", chars "m", chars "d"⟩

/-- C9 witness: a seven-commit single-author history yields exactly the
first five entries. -/
theorem claim_C9_first_five_witness :
    (diffsFor (chars "al") ((List.range 7).map exC9commit)
        (fun _ => Except.error []) (chars "T")).length ≤ 5 ∧
    diffsFor (chars "al") ((List.range 7).map exC9commit)
        (fun _ => Except.error []) (chars "T") =
      ((((List.range 7).map exC9commit).filter (fun c => c.author = chars "al")).take 5).map
        (fun c => diffEntry c ((fun _ => Except.error []) c)) := by
  constructor
  · exact claim_C9_first_five.1 (chars "al") ((List.range 7).map exC9commit)
      (fun _ => Except.error []) (chars "T")
  · exact claim_C9_first_five.2 (chars "al") ((List.range 7).map exC9commit)
      (fun _ => Except.error []) (chars "T") (by decide)

/-- C10: when the requested username matches no commit, the diffs route
returns exactly one placeholder entry (commit `N/A`, a "no commits"
message, no summary) instead of an empty array. -/
theorem claim_C10_no_commits_placeholder (u : List Char) (history : List CommitRec)
    (fetch : CommitRec → Except (List Char) (List Char)) (now : List Char)
    (h : history.filter (fun c => c.author = u) = []) :
    diffsFor u history fetch now = [noCommitsEntry now] := by
  unfold diffsFor
  rw [h]
  rfl

/-- C10 witness: an empty history produces the `N/A` placeholder. -/
theorem claim_C10_no_commits_placeholder_witness :
    diffsFor (chars "zoe") [] (fun _ => Except.error []) (chars "T") =
      [noCommitsEntry (chars "T")] :=
  claim_C10_no_commits_placeholder (chars "zoe") [] (fun _ => Except.error []) (chars "T") rfl

/-! ## Claim C3: the noise filter (spec section 4.3, modelled from the spec) -/

/-- C3: a block survives `filterNoise` iff it was present and neither of
its paths has a path component equal to the reserved segment (component
equality, not substring occurrence — e.g. `node_modules_backup` does not
match `node_modules` while a real `node_modules` component does); at the
sequence level a commit whose blocks are all excluded is omitted
entirely, and a commit with survivors keeps exactly its survivors. -/
theorem claim_C3_filterNoise :
    (∀ (seg : List Char) (blocks : List FileBlock) (b : FileBlock),
      b ∈ filterNoise seg blocks ↔
        b ∈ blocks ∧ ¬(hasSegment seg b.oldPath = true ∨ hasSegment seg b.newPath = true)) ∧
    (∀ (seg : List Char) (cs : List (List FileBlock)),
      filterNoiseSeq seg cs = (cs.map (filterNoise seg)).filter (fun l => !l.isEmpty)) ∧
    (hasSegment (chars "node_modules") (chars "node_modules_backup/a.js") = false ∧
     hasSegment (chars "node_modules") (chars "x/node_modules/a.js") = true) := by
  refine ⟨?_, ?_, by decide, by decide⟩
  · intro seg blocks b
    unfold filterNoise
    rw [List.mem_filter]
    unfold blockExcluded
    constructor
    · rintro ⟨h1, h2⟩
      refine ⟨h1, ?_⟩
      intro hor
      rcases hor with h | h <;> simp [h] at h2
    · rintro ⟨h1, h2⟩
      refine ⟨h1, ?_⟩
      simp only [Bool.not_eq_true'] at *
      cases ho : hasSegment seg b.oldPath
      · cases hn : hasSegment seg b.newPath
        · simp [ho, hn]
        · exact absurd (Or.inr hn) h2
      · exact absurd (Or.inl ho) h2
  · intro seg cs
    induction cs with
    | nil => rfl
    | cons c cs ih =>
      rw [filterNoiseSeq, List.map_cons, List.filter_cons]
      by_cases he : (filterNoise seg c).isEmpty = true
      · rw [if_pos he, ih]
        simp [he]
      · rw [if_neg he, ih]
        simp [he]

/-- C3 witness: the survivors characterisation at a concrete block list. -/
theorem claim_C3_filterNoise_witness :
    FileBlock.mk (chars "src/a.js") (chars "src/a.js") ∈
        filterNoise (chars "node_modules")
          [⟨chars "node_modules/x.js", chars "node_modules/x.js"⟩,
           ⟨chars "src/a.js", chars "src/a.js"⟩] ↔
      FileBlock.mk (chars "src/a.js") (chars "src/a.js") ∈
          [FileBlock.mk (chars "node_modules/x.js") (chars "node_modules/x.js"),
           ⟨chars "src/a.js", chars "src/a.js"⟩] ∧
        ¬(hasSegment (chars "node_modules") (chars "src/a.js") = true ∨
          hasSegment (chars "node_modules") (chars "src/a.js") = true) :=
  claim_C3_filterNoise.1 (chars "node_modules")
    [⟨chars "node_modules/x.js", chars "node_modules/x.js"⟩,
     ⟨chars "src/a.js", chars "src/a.js"⟩]
    ⟨chars "src/a.js", chars "src/a.js"⟩

/-- C1 witness: the amended round-trip statement evaluated at the
concrete raw text used in the counterexample. -/
theorem claim_C1_roundtrip_amended_witness :
    applySummary ⟨0, 0, 0⟩ (buildSummary exC1raw).text =
      ⟨((splitLines exC1raw).foldl diffLineStep initAcc).f, 0, 0⟩ :=
  (claim_C1_roundtrip_amended exC1raw).2.1

def exC8hist : List CommitRec :=
  [⟨chars "g1", chars "alice", [], []⟩, ⟨chars "g2", chars "bob", [], []⟩,
   ⟨chars "g3", chars "alice", [], []⟩]

/-- C8 witness: sortedness and the tie-order sublist property at a
concrete three-commit history. -/
theorem claim_C8_contributor_order_witness :
    (aggregateContributors exC8hist (fun _ => Except.error [])).Pairwise
      (fun a b => b.commits ≤ a.commits) ∧
    (((aggregateContributors exC8hist (fun _ => Except.error [])).filter
        (fun c => c.commits = 1)).map (fun c => c.username)).Sublist
      (firstSeenFrom [] (exC8hist.map (fun c => c.author))) :=
  ⟨(claim_C8_contributor_order.1 exC8hist (fun _ => Except.error [])).1,
   (claim_C8_contributor_order.1 exC8hist (fun _ => Except.error [])).2 1⟩
